import Mathlib

/-!
Verification of the LwM2M SenML-CBOR telemetry codec data model
(`src/subsys/net/lib/lwm2m/lwm2m_senml_cbor_types.h`), the encode/decode/resolve
logic described by the specification, and the LoRa driver API wrappers
(`src/include/zephyr/drivers/lora.h`).

Bytes are modelled as natural numbers (well-formed streams have all elements
below 256); 64-bit and 32-bit machine integers are modelled as `Int` with
explicit range predicates; IEEE-754 doubles are modelled by their 64-bit bit
pattern (a natural number below `2 ^ 64`), which the CBOR layer transports
verbatim, so codec statements about doubles are exact.
-/

namespace Senml

/-- The typed error outcomes of the codec (spec section 7). -/
inductive CodecError where
  | CapacityExceeded
  | DuplicateField
  | UnsupportedField
  | TypeMismatch
  | MalformedEncoding
deriving DecidableEq

/-- A byte of the wire stream; well-formed streams keep it below 256. -/
abbrev Byte := Nat

instance {ε α : Type} [DecidableEq ε] [DecidableEq α] : DecidableEq (Except ε α) := fun a b =>
  match a, b with
  | .ok x, .ok y =>
    if h : x = y then .isTrue (h ▸ rfl) else .isFalse fun hc => h (Except.ok.inj hc)
  | .error x, .error y =>
    if h : x = y then .isTrue (h ▸ rfl) else .isFalse fun hc => h (Except.error.inj hc)
  | .ok _, .error _ => .isFalse fun hc => Except.noConfusion hc
  | .error _, .ok _ => .isFalse fun hc => Except.noConfusion hc

/-- The record value union, from `struct record_union_` in
`lwm2m_senml_cbor_types.h`: integer, float (64-bit pattern), text string,
boolean, byte string ("data"), and object link.  The C source pairs an
untagged union with a discriminant enum; its Lean shallow embedding is an
inductive type with one constructor per union member. -/
inductive record_union_ where
  | union_vi (i : Int)
  | union_vf (bits : Nat)
  | union_vs (s : List Byte)
  | union_vb (b : Bool)
  | union_vd (s : List Byte)
  | union_vlo (s : List Byte)
deriving DecidableEq

/-- The extension-attribute value union, from `struct value_` in
`lwm2m_senml_cbor_types.h`: text, bytes, integer, float, boolean.  Note it has
no object-link member, unlike `record_union_`. -/
inductive value_ where
  | value_tstr (s : List Byte)
  | value_bstr (s : List Byte)
  | value_int (i : Int)
  | value_float (bits : Nat)
  | value_bool (b : Bool)
deriving DecidableEq

/-- One extension attribute, from `struct key_value_pair`: an `int32_t` key and
a `struct value_` payload. -/
structure key_value_pair where
  key : Int
  value : value_
deriving DecidableEq

/-- One SenML record, from `struct record`: optional base name, base time,
name, time, value (each a payload field plus a `_present` flag in the C
source, modelled as `Option`), and up to five extension attributes (a
five-element array plus a count in the C source, modelled as a list bounded
by the validity predicate). -/
structure record where
  bn : Option (List Byte)
  bt : Option Int
  n : Option (List Byte)
  t : Option Int
  u : Option record_union_
  kv : List key_value_pair
deriving DecidableEq

/-- A SenML pack, from `struct lwm2m_senml`: an ordered sequence of records
(a 99-element array plus a count in the C source). -/
structure lwm2m_senml where
  records : List record
deriving DecidableEq

/-! ## CBOR primitives

Modelled from the spec: the encoder/decoder sources of this repository are not
under `src/` (only the generated type declarations are), so the byte-level
CBOR forms follow spec sections 4.3 and 4.4. -/

/-- Big-endian byte expansion of `a` into `k` bytes (most significant first). -/
def beBytes : Nat → Nat → List Byte
  | 0, _ => []
  | k + 1, a => a / 256 ^ k :: beBytes k (a % 256 ^ k)

/-- Modelled from the spec: the canonical minimal-length CBOR head for major
type `m` and argument `a` (spec section 4.3: "shortest form that round-trips
the value exactly"). -/
def cborHead (m a : Nat) : List Byte :=
  if a < 24 then [32 * m + a]
  else if a < 2 ^ 8 then [32 * m + 24, a]
  else if a < 2 ^ 16 then (32 * m + 25) :: beBytes 2 a
  else if a < 2 ^ 32 then (32 * m + 26) :: beBytes 4 a
  else (32 * m + 27) :: beBytes 8 a

/-- The additional-information value `cborHead` selects for argument `a`. -/
def aiOf (a : Nat) : Nat :=
  if a < 24 then a
  else if a < 2 ^ 8 then 24
  else if a < 2 ^ 16 then 25
  else if a < 2 ^ 32 then 26
  else 27

/-- Modelled from the spec: canonical CBOR signed-integer encoding
(major type 0 for nonnegative, major type 1 for negative). -/
def encInt (i : Int) : List Byte :=
  if 0 ≤ i then cborHead 0 i.toNat else cborHead 1 (-(i + 1)).toNat

/-- Modelled from the spec: CBOR text-string encoding (major type 3). -/
def encTstr (s : List Byte) : List Byte :=
  cborHead 3 s.length ++ s

/-- Modelled from the spec: CBOR byte-string encoding (major type 2). -/
def encBstr (s : List Byte) : List Byte :=
  cborHead 2 s.length ++ s

/-- Modelled from the spec: CBOR boolean encoding (simple values 20/21). -/
def encBool (b : Bool) : List Byte :=
  [if b then 245 else 244]

/-- Modelled from the spec: CBOR IEEE-754 double encoding — head byte 0xFB
followed by the eight bytes of the bit pattern. -/
def encFloat (bits : Nat) : List Byte :=
  251 :: beBytes 8 bits

/-! ## Encoder

Modelled from the spec, section 4.3: each record is a map whose entries are
the present fields (base name under key -2 as text, base time under key -3 as
integer, name under key 0 as text, time under key 6 as integer, the value
under key 2/3/4/8/9 by variant) followed by the extension attributes under
their own integer keys; the pack is an array of the records. -/

/-- One logical map entry of a record's wire image. -/
inductive Entry where
  | bn (s : List Byte)
  | bt (i : Int)
  | n (s : List Byte)
  | t (i : Int)
  | v (u : record_union_)
  | ext (p : key_value_pair)
deriving DecidableEq

/-- The list of entries contributed by one optional field. -/
def optEntry (f : α → Entry) : Option α → List Entry
  | none => []
  | some x => [f x]

/-- Modelled from the spec: the entries of a record in table order — base
name, base time, name, time, value, then the extension attributes. Absent
fields contribute no entries. -/
def entriesOf (r : record) : List Entry :=
  optEntry Entry.bn r.bn ++ optEntry Entry.bt r.bt ++ optEntry Entry.n r.n ++
    optEntry Entry.t r.t ++ optEntry Entry.v r.u ++ r.kv.map Entry.ext

/-- Modelled from the spec: the payload bytes of an extension-attribute value,
by variant (same payload rules as the record value). -/
def encExtValue : value_ → List Byte
  | .value_tstr s => encTstr s
  | .value_bstr s => encBstr s
  | .value_int i => encInt i
  | .value_float bits => encFloat bits
  | .value_bool b => encBool b

/-- The wire key of a record value, by variant (spec section 4.3 table). -/
def valueKeyOf : record_union_ → Int
  | .union_vi _ => 2
  | .union_vf _ => 2
  | .union_vs _ => 3
  | .union_vb _ => 4
  | .union_vd _ => 8
  | .union_vlo _ => 9

/-- Modelled from the spec: the payload bytes of a record value, by variant. -/
def encValuePayload : record_union_ → List Byte
  | .union_vi i => encInt i
  | .union_vf bits => encFloat bits
  | .union_vs s => encTstr s
  | .union_vb b => encBool b
  | .union_vd s => encBstr s
  | .union_vlo s => encTstr s

/-- Modelled from the spec: the bytes of one map entry — the encoded key
followed by the encoded payload. -/
def encEntry : Entry → List Byte
  | .bn s => encInt (-2) ++ encTstr s
  | .bt i => encInt (-3) ++ encInt i
  | .n s => encInt 0 ++ encTstr s
  | .t i => encInt 6 ++ encInt i
  | .v u => encInt (valueKeyOf u) ++ encValuePayload u
  | .ext p => encInt p.key ++ encExtValue p.value

/-- Modelled from the spec: a record's wire image — a map head whose size is
the number of present fields plus extensions, then the entries. -/
def encRecord (r : record) : List Byte :=
  cborHead 5 (entriesOf r).length ++ ((entriesOf r).map encEntry).flatten

/-- Modelled from the spec: the pack's wire image — an array head of the
record count, then the record images. -/
def encodeBytes (p : lwm2m_senml) : List Byte :=
  cborHead 4 p.records.length ++ (p.records.map encRecord).flatten

/-- Modelled from the spec: the encoder — all-or-nothing; fails with
`CapacityExceeded` (before emitting any byte) if the pack has more than 99
records or any record has more than 5 extension attributes. -/
def encode (p : lwm2m_senml) : Except CodecError (List Byte) :=
  if 99 < p.records.length then .error .CapacityExceeded
  else if p.records.any (fun r => decide (5 < r.kv.length)) then .error .CapacityExceeded
  else .ok (encodeBytes p)

/-! ## Decoder

Modelled from the spec, section 4.4: a single forward pass — read the outer
array head, reject declared lengths above 99 with `CapacityExceeded` before
touching any record body, then per record read a map head and dispatch each
entry on its integer key, rejecting duplicate standard keys
(`DuplicateField`), keys outside both the standard table and the `int32`
extension-key namespace (`UnsupportedField`), payload types that disagree
with the key's defined type (`TypeMismatch`), and truncated or structurally
invalid containers (`MalformedEncoding`). -/

/-- Fold `k` big-endian bytes from the stream onto `acc`; fails with
`MalformedEncoding` when the stream is shorter than `k`. -/
def takeBe : Nat → Nat → List Byte → Except CodecError (Nat × List Byte)
  | 0, acc, input => .ok (acc, input)
  | _ + 1, _, [] => .error .MalformedEncoding
  | k + 1, acc, b :: bs => takeBe k (256 * acc + b) bs

/-- Modelled from the spec: read one CBOR head, returning the major type, the
additional-information value, the argument, and the unconsumed tail.
Reserved additional-information values 28-30 and the indefinite-length marker
31 are structurally invalid (`MalformedEncoding`). -/
def readHead : List Byte → Except CodecError (Nat × Nat × Nat × List Byte)
  | [] => .error .MalformedEncoding
  | b :: bs =>
    let m := b / 32
    let ai := b % 32
    if ai < 24 then .ok (m, ai, ai, bs)
    else if ai = 24 then
      match takeBe 1 0 bs with
      | .ok (a, rest) => .ok (m, 24, a, rest)
      | .error e => .error e
    else if ai = 25 then
      match takeBe 2 0 bs with
      | .ok (a, rest) => .ok (m, 25, a, rest)
      | .error e => .error e
    else if ai = 26 then
      match takeBe 4 0 bs with
      | .ok (a, rest) => .ok (m, 26, a, rest)
      | .error e => .error e
    else if ai = 27 then
      match takeBe 8 0 bs with
      | .ok (a, rest) => .ok (m, 27, a, rest)
      | .error e => .error e
    else .error .MalformedEncoding

/-- Take exactly `k` payload bytes from the stream; fails with
`MalformedEncoding` (never over-reads) when fewer remain. -/
def readBytes : Nat → List Byte → Except CodecError (List Byte × List Byte)
  | 0, input => .ok ([], input)
  | _ + 1, [] => .error .MalformedEncoding
  | k + 1, b :: bs =>
    match readBytes k bs with
    | .ok (s, rest) => .ok (b :: s, rest)
    | .error e => .error e

/-- Modelled from the spec: read a text-string payload (major type 3);
any other major type is a `TypeMismatch`. -/
def readText (input : List Byte) : Except CodecError (List Byte × List Byte) :=
  match readHead input with
  | .error e => .error e
  | .ok (m, _, len, rest) =>
    if m = 3 then readBytes len rest else .error .TypeMismatch

/-- Modelled from the spec: read a byte-string payload (major type 2);
any other major type is a `TypeMismatch`. -/
def readBstr (input : List Byte) : Except CodecError (List Byte × List Byte) :=
  match readHead input with
  | .error e => .error e
  | .ok (m, _, len, rest) =>
    if m = 2 then readBytes len rest else .error .TypeMismatch

/-- Modelled from the spec: read a signed-integer payload (major type 0 or
1); any other major type is a `TypeMismatch`. -/
def readInt (input : List Byte) : Except CodecError (Int × List Byte) :=
  match readHead input with
  | .error e => .error e
  | .ok (m, _, a, rest) =>
    if m = 0 then .ok ((a : Int), rest)
    else if m = 1 then .ok (-1 - (a : Int), rest)
    else .error .TypeMismatch

/-- Modelled from the spec: read the payload of wire key 2 — a signed integer
or an IEEE-754 double; anything else is a `TypeMismatch`. -/
def readNum (input : List Byte) : Except CodecError (record_union_ × List Byte) :=
  match readHead input with
  | .error e => .error e
  | .ok (m, ai, a, rest) =>
    if m = 0 then .ok (.union_vi (a : Int), rest)
    else if m = 1 then .ok (.union_vi (-1 - (a : Int)), rest)
    else if m = 7 then
      if ai = 27 then .ok (.union_vf a, rest) else .error .TypeMismatch
    else .error .TypeMismatch

/-- Modelled from the spec: read a boolean payload (simple value 20 or 21);
anything else is a `TypeMismatch`. -/
def readBool (input : List Byte) : Except CodecError (Bool × List Byte) :=
  match readHead input with
  | .error e => .error e
  | .ok (m, ai, _, rest) =>
    if m = 7 then
      if ai = 20 then .ok (false, rest)
      else if ai = 21 then .ok (true, rest)
      else .error .TypeMismatch
    else .error .TypeMismatch

/-- Modelled from the spec: read an extension-attribute payload, dispatching
on the encoded type to the matching `value_` variant; container or other
unsupported payload types are a `TypeMismatch`. -/
def readExtValue (input : List Byte) : Except CodecError (value_ × List Byte) :=
  match readHead input with
  | .error e => .error e
  | .ok (m, ai, a, rest) =>
    if m = 0 then .ok (.value_int (a : Int), rest)
    else if m = 1 then .ok (.value_int (-1 - (a : Int)), rest)
    else if m = 2 then
      match readBytes a rest with
      | .ok (s, rest2) => .ok (.value_bstr s, rest2)
      | .error e => .error e
    else if m = 3 then
      match readBytes a rest with
      | .ok (s, rest2) => .ok (.value_tstr s, rest2)
      | .error e => .error e
    else if m = 7 then
      if ai = 27 then .ok (.value_float a, rest)
      else if ai = 20 then .ok (.value_bool false, rest)
      else if ai = 21 then .ok (.value_bool true, rest)
      else .error .TypeMismatch
    else .error .TypeMismatch

/-- The standard wire keys of the spec section 4.3 table. -/
def stdKeys : List Int := [-2, -3, 0, 6, 2, 3, 4, 8, 9]

/-- Whether `k` is representable as an `int32_t` — the extension-key
namespace of `struct key_value_pair` (spec section 3: keys are small
vendor-defined integers). -/
def isInt32 (k : Int) : Bool :=
  decide (-(2 ^ 31) ≤ k) && decide (k < 2 ^ 31)

/-- The record with every field absent and no extensions. -/
def emptyRecord : record :=
  { bn := none, bt := none, n := none, t := none, u := none, kv := [] }

/-- Modelled from the spec: dispatch one decoded map key — populate the
matching record field (`DuplicateField` if already populated), append an
extension for an unknown `int32` key (`CapacityExceeded` past five), and
reject keys outside both namespaces with `UnsupportedField` without reading
their payload. -/
def decodeEntry (key : Int) (r : record) (input : List Byte) :
    Except CodecError (record × List Byte) :=
  if key = -2 then
    if r.bn.isSome then .error .DuplicateField
    else
      match readText input with
      | .ok (s, rest) => .ok ({ r with bn := some s }, rest)
      | .error e => .error e
  else if key = -3 then
    if r.bt.isSome then .error .DuplicateField
    else
      match readInt input with
      | .ok (i, rest) => .ok ({ r with bt := some i }, rest)
      | .error e => .error e
  else if key = 0 then
    if r.n.isSome then .error .DuplicateField
    else
      match readText input with
      | .ok (s, rest) => .ok ({ r with n := some s }, rest)
      | .error e => .error e
  else if key = 6 then
    if r.t.isSome then .error .DuplicateField
    else
      match readInt input with
      | .ok (i, rest) => .ok ({ r with t := some i }, rest)
      | .error e => .error e
  else if key = 2 then
    if r.u.isSome then .error .DuplicateField
    else
      match readNum input with
      | .ok (u, rest) => .ok ({ r with u := some u }, rest)
      | .error e => .error e
  else if key = 3 then
    if r.u.isSome then .error .DuplicateField
    else
      match readText input with
      | .ok (s, rest) => .ok ({ r with u := some (.union_vs s) }, rest)
      | .error e => .error e
  else if key = 4 then
    if r.u.isSome then .error .DuplicateField
    else
      match readBool input with
      | .ok (b, rest) => .ok ({ r with u := some (.union_vb b) }, rest)
      | .error e => .error e
  else if key = 8 then
    if r.u.isSome then .error .DuplicateField
    else
      match readBstr input with
      | .ok (s, rest) => .ok ({ r with u := some (.union_vd s) }, rest)
      | .error e => .error e
  else if key = 9 then
    if r.u.isSome then .error .DuplicateField
    else
      match readText input with
      | .ok (s, rest) => .ok ({ r with u := some (.union_vlo s) }, rest)
      | .error e => .error e
  else if isInt32 key then
    if 5 ≤ r.kv.length then .error .CapacityExceeded
    else
      match readExtValue input with
      | .ok (v, rest) => .ok ({ r with kv := r.kv ++ [⟨key, v⟩] }, rest)
      | .error e => .error e
  else .error .UnsupportedField

/-- Modelled from the spec: decode `cnt` map entries into the record built so
far — read the integer key (a non-integer key is structurally invalid), then
dispatch it. -/
def decodeEntries : Nat → record → List Byte → Except CodecError (record × List Byte)
  | 0, r, input => .ok (r, input)
  | cnt + 1, r, input =>
    match readHead input with
    | .error e => .error e
    | .ok (m, _, a, rest) =>
      if m = 0 then
        match decodeEntry (a : Int) r rest with
        | .ok (r2, rest2) => decodeEntries cnt r2 rest2
        | .error e => .error e
      else if m = 1 then
        match decodeEntry (-1 - (a : Int)) r rest with
        | .ok (r2, rest2) => decodeEntries cnt r2 rest2
        | .error e => .error e
      else .error .MalformedEncoding

/-- Modelled from the spec: decode one record — a map head then its entries,
starting from the all-absent record. -/
def decodeRecord (input : List Byte) : Except CodecError (record × List Byte) :=
  match readHead input with
  | .error e => .error e
  | .ok (m, _, size, rest) =>
    if m = 5 then decodeEntries size emptyRecord rest
    else .error .MalformedEncoding

/-- Modelled from the spec: decode `cnt` consecutive records. -/
def decodeRecords : Nat → List Byte → Except CodecError (List record × List Byte)
  | 0, input => .ok ([], input)
  | cnt + 1, input =>
    match decodeRecord input with
    | .error e => .error e
    | .ok (r, rest) =>
      match decodeRecords cnt rest with
      | .error e => .error e
      | .ok (rs, rest2) => .ok (r :: rs, rest2)

/-- Modelled from the spec: decode a pack and return the unconsumed tail —
read the outer array head, fail with `CapacityExceeded` immediately when its
declared length exceeds 99 (before reading any record body), else decode that
many records. -/
def decodeCore (input : List Byte) : Except CodecError (lwm2m_senml × List Byte) :=
  match readHead input with
  | .error e => .error e
  | .ok (m, _, len, rest) =>
    if m = 4 then
      if 99 < len then .error .CapacityExceeded
      else
        match decodeRecords len rest with
        | .error e => .error e
        | .ok (rs, rest2) => .ok (⟨rs⟩, rest2)
    else .error .MalformedEncoding

/-- Modelled from the spec: the decoder — the decoded pack of `decodeCore`. -/
def decode (input : List Byte) : Except CodecError lwm2m_senml :=
  (decodeCore input).map Prod.fst

/-! ## Resolver

Modelled from the spec, section 4.5: a left-to-right fold carrying the most
recently set base name and base time; each record's effective name is the
inherited base name joined to the record's own name (the spec's resolver
example in section 8 joins the two components with a `/` byte when both are
present), and its effective time is the inherited base time plus the record's
own time offset, a missing component leaving the present one alone and
neither present giving the empty name and time zero. -/

/-- The first option when set, otherwise the fallback. -/
def keep : Option α → Option α → Option α
  | some x, _ => some x
  | none, old => old

/-- Modelled from the spec: the effective name — base name joined to the
record name by a `/` byte when both are present, whichever is present when
only one is, empty when neither is. -/
def effName : Option (List Byte) → Option (List Byte) → List Byte
  | some b, some nm => b ++ 47 :: nm
  | some b, none => b
  | none, some nm => nm
  | none, none => []

/-- Modelled from the spec: the resolver fold over the records, carrying the
base name and base time set most recently at or before each record. -/
def resolveGo : Option (List Byte) → Option Int → List record → List (List Byte × Int)
  | _, _, [] => []
  | cbn, cbt, r :: rs =>
    let nbn := keep r.bn cbn
    let nbt := keep r.bt cbt
    (effName nbn r.n, nbt.getD 0 + r.t.getD 0) :: resolveGo nbn nbt rs

/-- Modelled from the spec: the resolver — effective (name, time) pairs for
the records of a pack, in order. -/
def resolve (p : lwm2m_senml) : List (List Byte × Int) :=
  resolveGo none none p.records

/-- The base value (from `f`) most recently set at or before record `i`:
the first hit of `f` scanning records `i, i-1, ..., 0` — the reference
formulation C4 is checked against. -/
def baseAt (f : record → Option α) (rs : List record) (i : Nat) : Option α :=
  ((rs.take (i + 1)).reverse).findSome? f

/-! ## Validity

The structural invariants of the C data model: strings are byte sequences
(`zcbor_string`), times and integer values are `int64_t`, extension keys are
`int32_t` outside the standard key table, at most five extensions per record
(`_record__key_value_pair[5]`), at most 99 records per pack
(`_lwm2m_senml__record[99]`). -/

/-- A well-formed byte string: all elements below 256, length expressible in
a CBOR head (the C `zcbor_string` length is a `size_t`). -/
def validStr (s : List Byte) : Prop := (∀ b ∈ s, b < 256) ∧ s.length < 2 ^ 64

/-- `int64_t` range. -/
def int64Range (i : Int) : Prop := -(2 ^ 63) ≤ i ∧ i < 2 ^ 63

/-- Well-formedness of a record value, by variant. -/
def validUnion : record_union_ → Prop
  | .union_vi i => int64Range i
  | .union_vf bits => bits < 2 ^ 64
  | .union_vs s => validStr s
  | .union_vb _ => True
  | .union_vd s => validStr s
  | .union_vlo s => validStr s

/-- Well-formedness of an extension-attribute value, by variant. -/
def validExtValue : value_ → Prop
  | .value_tstr s => validStr s
  | .value_bstr s => validStr s
  | .value_int i => int64Range i
  | .value_float bits => bits < 2 ^ 64
  | .value_bool _ => True

/-- Well-formedness of an extension attribute: an `int32` key outside the
standard key table, and a well-formed value. -/
def validKV (p : key_value_pair) : Prop :=
  isInt32 p.key = true ∧ p.key ∉ stdKeys ∧ validExtValue p.value

/-- Well-formedness of a record. -/
def validRecord (r : record) : Prop :=
  (∀ s ∈ r.bn, validStr s) ∧ (∀ i ∈ r.bt, int64Range i) ∧
    (∀ s ∈ r.n, validStr s) ∧ (∀ i ∈ r.t, int64Range i) ∧
    (∀ u ∈ r.u, validUnion u) ∧ r.kv.length ≤ 5 ∧ ∀ p ∈ r.kv, validKV p

/-- Well-formedness of a pack: at most 99 well-formed records. -/
def validPack (p : lwm2m_senml) : Prop :=
  p.records.length ≤ 99 ∧ ∀ r ∈ p.records, validRecord r

instance : DecidablePred validStr := fun _ =>
  inferInstanceAs (Decidable (_ ∧ _))

instance : DecidablePred int64Range := fun _ =>
  inferInstanceAs (Decidable (_ ∧ _))

instance : DecidablePred validUnion := fun u =>
  match u with
  | .union_vi _ => inferInstanceAs (Decidable (int64Range _))
  | .union_vf _ => inferInstanceAs (Decidable (_ < _))
  | .union_vs _ => inferInstanceAs (Decidable (validStr _))
  | .union_vb _ => inferInstanceAs (Decidable True)
  | .union_vd _ => inferInstanceAs (Decidable (validStr _))
  | .union_vlo _ => inferInstanceAs (Decidable (validStr _))

instance : DecidablePred validExtValue := fun v =>
  match v with
  | .value_tstr _ => inferInstanceAs (Decidable (validStr _))
  | .value_bstr _ => inferInstanceAs (Decidable (validStr _))
  | .value_int _ => inferInstanceAs (Decidable (int64Range _))
  | .value_float _ => inferInstanceAs (Decidable (_ < _))
  | .value_bool _ => inferInstanceAs (Decidable True)

instance : DecidablePred validKV := fun _ =>
  inferInstanceAs (Decidable (_ ∧ _ ∧ _))

instance : DecidablePred validRecord := fun _ =>
  inferInstanceAs (Decidable (_ ∧ _ ∧ _ ∧ _ ∧ _ ∧ _ ∧ _))

instance : DecidablePred validPack := fun _ =>
  inferInstanceAs (Decidable (_ ∧ _))

/-! ## Decoding a record's encoded entries -/

/-- The record-state effect of dispatching one entry. -/
def applyEntry (r : record) : Entry → record
  | .bn s => { r with bn := some s }
  | .bt i => { r with bt := some i }
  | .n s => { r with n := some s }
  | .t i => { r with t := some i }
  | .v u => { r with u := some u }
  | .ext p => { r with kv := r.kv ++ [p] }

/-- The state precondition under which dispatching the entry succeeds:
its standard field is not yet populated, or there is room for one more
extension. -/
def entryPre : Entry → record → Prop
  | .bn _, r => r.bn = none
  | .bt _, r => r.bt = none
  | .n _, r => r.n = none
  | .t _, r => r.t = none
  | .v _, r => r.u = none
  | .ext _, r => r.kv.length < 5

/-- Static well-formedness of one entry. -/
def validEntry : Entry → Prop
  | .bn s => validStr s
  | .bt i => int64Range i
  | .n s => validStr s
  | .t i => int64Range i
  | .v u => validUnion u
  | .ext p => isInt32 p.key = true ∧ p.key ∉ stdKeys ∧ validExtValue p.value

/-- The entry-chain precondition: each entry's precondition holds in the state
reached after the preceding entries. -/
def chainPre : List Entry → record → Prop
  | [], _ => True
  | e :: es, r => entryPre e r ∧ chainPre es (applyEntry r e)

/-! ## Typed error classification -/

/-- The wire key an entry is written under. -/
def entryKey : Entry → Int
  | .bn _ => -2
  | .bt _ => -3
  | .n _ => 0
  | .t _ => 6
  | .v u => valueKeyOf u
  | .ext p => p.key

/-- The payload bytes of an entry (what follows its key). -/
def entryPayload : Entry → List Byte
  | .bn s => encTstr s
  | .bt i => encInt i
  | .n s => encTstr s
  | .t i => encInt i
  | .v u => encValuePayload u
  | .ext p => encExtValue p.value

/-- Whether the entry carries a standard field (not an extension). -/
def isStdEntry : Entry → Bool
  | .ext _ => false
  | _ => true

/-! ## Wire layout of one record -/

/-- The number of present (optional) fields of a record. -/
def presentCount (r : record) : Nat :=
  (if r.bn.isSome then 1 else 0) + (if r.bt.isSome then 1 else 0) +
    (if r.n.isSome then 1 else 0) + (if r.t.isSome then 1 else 0) +
    (if r.u.isSome then 1 else 0)

/-- The per-variant wire image of the value entry: its key byte from the
spec section 4.3 table, then the payload. -/
def valueEntryBytes : record_union_ → List Byte
  | .union_vi i => [2] ++ encInt i
  | .union_vf bits => [2] ++ encFloat bits
  | .union_vs s => [3] ++ encTstr s
  | .union_vb b => [4] ++ encBool b
  | .union_vd s => [8] ++ encBstr s
  | .union_vlo s => [9] ++ encTstr s

/-! ## Variant discrimination -/

/-- Tests whether the record value is the integer variant. -/
def is_vi : record_union_ → Bool
  | .union_vi _ => true
  | _ => false

/-- Tests whether the record value is the float variant. -/
def is_vf : record_union_ → Bool
  | .union_vf _ => true
  | _ => false

/-- Tests whether the record value is the text variant. -/
def is_vs : record_union_ → Bool
  | .union_vs _ => true
  | _ => false

/-- Tests whether the record value is the boolean variant. -/
def is_vb : record_union_ → Bool
  | .union_vb _ => true
  | _ => false

/-- Tests whether the record value is the byte-string variant. -/
def is_vd : record_union_ → Bool
  | .union_vd _ => true
  | _ => false

/-- Tests whether the record value is the object-link variant. -/
def is_vlo : record_union_ → Bool
  | .union_vlo _ => true
  | _ => false

/-- Tests whether the extension value is the text variant. -/
def is_tstr : value_ → Bool
  | .value_tstr _ => true
  | _ => false

/-- Tests whether the extension value is the byte-string variant. -/
def is_bstr : value_ → Bool
  | .value_bstr _ => true
  | _ => false

/-- Tests whether the extension value is the integer variant. -/
def is_int : value_ → Bool
  | .value_int _ => true
  | _ => false

/-- Tests whether the extension value is the float variant. -/
def is_float : value_ → Bool
  | .value_float _ => true
  | _ => false

/-- Tests whether the extension value is the boolean variant. -/
def is_bool : value_ → Bool
  | .value_bool _ => true
  | _ => false

/-- The natural embedding of the extension-attribute value union into the
record value union: text to text, bytes to bytes ("data"), integer to
integer, float to float, boolean to boolean — and nothing maps to the
object-link variant. -/
def value_toUnion : value_ → record_union_
  | .value_tstr s => .union_vs s
  | .value_bstr s => .union_vd s
  | .value_int i => .union_vi i
  | .value_float bits => .union_vf bits
  | .value_bool b => .union_vb b

instance : DecidablePred validEntry := fun e =>
  match e with
  | .bn _ => inferInstanceAs (Decidable (validStr _))
  | .bt _ => inferInstanceAs (Decidable (int64Range _))
  | .n _ => inferInstanceAs (Decidable (validStr _))
  | .t _ => inferInstanceAs (Decidable (int64Range _))
  | .v _ => inferInstanceAs (Decidable (validUnion _))
  | .ext _ => inferInstanceAs (Decidable (_ ∧ _ ∧ _))

/-! ## Concrete packs used by the witnesses -/

/-- The first record of the spec section 8 resolver example:
base name "dev", base time 1000, name "temp", time 5, value Integer(21). -/
def exRec1 : record :=
  { bn := some [100, 101, 118], bt := some 1000, n := some [116, 101, 109, 112],
    t := some 5, u := some (.union_vi 21), kv := [] }

/-- The second record of the spec section 8 resolver example:
name "humid", time 7, value Integer(40). -/
def exRec2 : record :=
  { bn := none, bt := none, n := some [104, 117, 109, 105, 100], t := some 7,
    u := some (.union_vi 40), kv := [] }

/-- The spec section 8 resolver example pack. -/
def examplePack : lwm2m_senml := ⟨[exRec1, exRec2]⟩

/-- A pack exercising every value variant, negative times, doubles, and a
full extension list. -/
def pack0 : lwm2m_senml := ⟨[
  exRec1,
  { bn := none, bt := some (-300), n := some [104, 117, 109, 105, 100], t := some 7,
    u := some (.union_vf 4614256656552045848),
    kv := [⟨10, .value_bool true⟩, ⟨7777, .value_tstr [65, 66]⟩, ⟨-100, .value_float 99⟩,
      ⟨23, .value_bstr [1, 2, 3]⟩, ⟨1000000, .value_int (-77)⟩] },
  { bn := none, bt := none, n := none, t := none, u := some (.union_vlo [47, 51]), kv := [] },
  { bn := none, bt := none, n := none, t := none, u := some (.union_vd [255, 0]), kv := [] },
  { bn := none, bt := none, n := none, t := none, u := some (.union_vb false), kv := [] },
  { bn := none, bt := none, n := none, t := none, u := some (.union_vs [120]), kv := [] },
  emptyRecord]⟩

/-- A record with six extension attributes — over the five-entry capacity. -/
def rec6ext : record :=
  { bn := none, bt := none, n := none, t := none, u := none,
    kv := [⟨10, .value_int 1⟩, ⟨11, .value_int 2⟩, ⟨12, .value_int 3⟩,
      ⟨13, .value_int 4⟩, ⟨14, .value_int 5⟩, ⟨15, .value_int 6⟩] }

/-- A pack containing the over-capacity record. -/
def pack6ext : lwm2m_senml := ⟨[rec6ext]⟩

/-! ## Round-trip lemmas for the CBOR primitives -/

theorem takeBe_beBytes (k : Nat) : ∀ (acc a : Nat) (rest : List Byte), a < 256 ^ k →
    takeBe k acc (beBytes k a ++ rest) = .ok (acc * 256 ^ k + a, rest) := by
  induction k with
  | zero =>
    intro acc a rest ha
    interval_cases a
    simp [takeBe, beBytes]
  | succ k ih =>
    intro acc a rest ha
    have hpos : 0 < 256 ^ k := pow_pos (by norm_num) k
    have hda : 256 ^ k * (a / 256 ^ k) + a % 256 ^ k = a := Nat.div_add_mod a (256 ^ k)
    have ihm := ih (256 * acc + a / 256 ^ k) (a % 256 ^ k) rest (Nat.mod_lt a hpos)
    have e : (256 * acc + a / 256 ^ k) * 256 ^ k + a % 256 ^ k = acc * 256 ^ (k + 1) + a := by
      conv_rhs => rw [← hda]
      rw [pow_succ]
      ring
    rw [e] at ihm
    simp only [beBytes, List.cons_append, takeBe]
    exact ihm

theorem readHead_cborHead (m a : Nat) (rest : List Byte) (ha : a < 2 ^ 64) :
    readHead (cborHead m a ++ rest) = .ok (m, aiOf a, a, rest) := by
  have hdiv : ∀ x, x < 32 → (32 * m + x) / 32 = m := by intro x hx; omega
  have hmod : ∀ x, x < 32 → (32 * m + x) % 32 = x := by intro x hx; omega
  unfold cborHead aiOf
  split_ifs with h1 h2 h3 h4
  · simp [readHead, hdiv a (by omega), hmod a (by omega), h1]
  · simp [readHead, hdiv 24 (by omega), hmod 24 (by omega), takeBe]
  · simp [readHead, hdiv 25 (by omega), hmod 25 (by omega),
      takeBe_beBytes 2 0 a rest (by omega)]
  · simp [readHead, hdiv 26 (by omega), hmod 26 (by omega),
      takeBe_beBytes 4 0 a rest (by omega)]
  · simp [readHead, hdiv 27 (by omega), hmod 27 (by omega),
      takeBe_beBytes 8 0 a rest (by omega)]

theorem readBytes_append (s : List Byte) : ∀ (rest : List Byte),
    readBytes s.length (s ++ rest) = .ok (s, rest) := by
  induction s with
  | nil => intro rest; simp [readBytes]
  | cons b bs ih => intro rest; simp [readBytes, ih]

theorem readText_encTstr (s : List Byte) (rest : List Byte) (hlen : s.length < 2 ^ 64) :
    readText (encTstr s ++ rest) = .ok (s, rest) := by
  simp [readText, encTstr, List.append_assoc, readHead_cborHead _ _ _ hlen, readBytes_append]

theorem readBstr_encBstr (s : List Byte) (rest : List Byte) (hlen : s.length < 2 ^ 64) :
    readBstr (encBstr s ++ rest) = .ok (s, rest) := by
  simp [readBstr, encBstr, List.append_assoc, readHead_cborHead _ _ _ hlen, readBytes_append]

theorem readHead_encInt (i : Int) (rest : List Byte) (hi : int64Range i) :
    ∃ m a, readHead (encInt i ++ rest) = .ok (m, aiOf a, a, rest) ∧
      ((m = 0 ∧ (a : Int) = i) ∨ (m = 1 ∧ (a : Int) = -(i + 1))) := by
  obtain ⟨hlo, hhi⟩ := hi
  unfold encInt
  split_ifs with h
  · exact ⟨0, i.toNat, readHead_cborHead _ _ _ (by omega),
      Or.inl ⟨rfl, Int.toNat_of_nonneg h⟩⟩
  · exact ⟨1, (-(i + 1)).toNat, readHead_cborHead _ _ _ (by omega),
      Or.inr ⟨rfl, Int.toNat_of_nonneg (by omega)⟩⟩

theorem readInt_encInt (i : Int) (rest : List Byte) (hi : int64Range i) :
    readInt (encInt i ++ rest) = .ok (i, rest) := by
  obtain ⟨m, a, hh, hcase⟩ := readHead_encInt i rest hi
  rcases hcase with ⟨hm, ha⟩ | ⟨hm, ha⟩ <;> subst hm <;> simp [readInt, hh] <;> omega

theorem readNum_encInt (i : Int) (rest : List Byte) (hi : int64Range i) :
    readNum (encInt i ++ rest) = .ok (.union_vi i, rest) := by
  obtain ⟨m, a, hh, hcase⟩ := readHead_encInt i rest hi
  rcases hcase with ⟨hm, ha⟩ | ⟨hm, ha⟩ <;> subst hm <;> simp [readNum, hh] <;> omega

theorem readNum_encFloat (bits : Nat) (rest : List Byte) (hb : bits < 2 ^ 64) :
    readNum (encFloat bits ++ rest) = .ok (.union_vf bits, rest) := by
  simp [readNum, encFloat, readHead, takeBe_beBytes 8 0 bits rest (by omega)]

theorem readBool_encBool (b : Bool) (rest : List Byte) :
    readBool (encBool b ++ rest) = .ok (b, rest) := by
  cases b <;> simp [readBool, encBool, readHead]

theorem readExtValue_encExtValue (v : value_) (rest : List Byte) (hv : validExtValue v) :
    readExtValue (encExtValue v ++ rest) = .ok (v, rest) := by
  cases v with
  | value_tstr s =>
    simp [readExtValue, encExtValue, encTstr, List.append_assoc,
      readHead_cborHead _ _ _ hv.2, readBytes_append]
  | value_bstr s =>
    simp [readExtValue, encExtValue, encBstr, List.append_assoc,
      readHead_cborHead _ _ _ hv.2, readBytes_append]
  | value_int i =>
    obtain ⟨m, a, hh, hcase⟩ := readHead_encInt i rest hv
    simp only [encExtValue]
    rcases hcase with ⟨hm, ha⟩ | ⟨hm, ha⟩ <;> subst hm <;> simp [readExtValue, hh] <;> omega
  | value_float bits =>
    have hb : bits < 2 ^ 64 := hv
    simp [readExtValue, encExtValue, encFloat, readHead,
      takeBe_beBytes 8 0 bits rest (by omega)]
  | value_bool b =>
    cases b <;> simp [readExtValue, encExtValue, encBool, readHead]

theorem decodeEntries_encInt (k : Int) (hk : int64Range k) (cnt : Nat) (r : record)
    (more : List Byte) :
    decodeEntries (cnt + 1) r (encInt k ++ more) =
      match decodeEntry k r more with
      | .ok (r2, rest2) => decodeEntries cnt r2 rest2
      | .error e => .error e := by
  obtain ⟨m, a, hh, hcase⟩ := readHead_encInt k more hk
  rcases hcase with ⟨hm, ha⟩ | ⟨hm, ha⟩ <;> subst hm
  · subst ha
    simp [decodeEntries, hh]
  · have e1 : k = -1 - (a : Int) := by omega
    subst e1
    simp [decodeEntries, hh]

theorem decodeEntries_step (e : Entry) (cnt : Nat) (r : record) (more : List Byte)
    (hpre : entryPre e r) (hval : validEntry e) :
    decodeEntries (cnt + 1) r (encEntry e ++ more) = decodeEntries cnt (applyEntry r e) more := by
  cases e with
  | bn s =>
    have hp : r.bn = none := hpre
    have hs : validStr s := hval
    rw [show encEntry (.bn s) ++ more = encInt (-2) ++ (encTstr s ++ more) by simp [encEntry]]
    rw [decodeEntries_encInt (-2) (by norm_num [int64Range]) cnt r _]
    have hd : decodeEntry (-2) r (encTstr s ++ more) = .ok ({ r with bn := some s }, more) := by
      simp [decodeEntry, hp, readText_encTstr s more hs.2]
    rw [hd]
    rfl
  | bt i =>
    have hp : r.bt = none := hpre
    have hi : int64Range i := hval
    rw [show encEntry (.bt i) ++ more = encInt (-3) ++ (encInt i ++ more) by simp [encEntry]]
    rw [decodeEntries_encInt (-3) (by norm_num [int64Range]) cnt r _]
    have hd : decodeEntry (-3) r (encInt i ++ more) = .ok ({ r with bt := some i }, more) := by
      simp [decodeEntry, hp, readInt_encInt i more hi]
    rw [hd]
    rfl
  | n s =>
    have hp : r.n = none := hpre
    have hs : validStr s := hval
    rw [show encEntry (.n s) ++ more = encInt 0 ++ (encTstr s ++ more) by simp [encEntry]]
    rw [decodeEntries_encInt 0 (by norm_num [int64Range]) cnt r _]
    have hd : decodeEntry 0 r (encTstr s ++ more) = .ok ({ r with n := some s }, more) := by
      simp [decodeEntry, hp, readText_encTstr s more hs.2]
    rw [hd]
    rfl
  | t i =>
    have hp : r.t = none := hpre
    have hi : int64Range i := hval
    rw [show encEntry (.t i) ++ more = encInt 6 ++ (encInt i ++ more) by simp [encEntry]]
    rw [decodeEntries_encInt 6 (by norm_num [int64Range]) cnt r _]
    have hd : decodeEntry 6 r (encInt i ++ more) = .ok ({ r with t := some i }, more) := by
      simp [decodeEntry, hp, readInt_encInt i more hi]
    rw [hd]
    rfl
  | v u =>
    have hp : r.u = none := hpre
    cases u with
    | union_vi i =>
      have hi : int64Range i := hval
      rw [show encEntry (.v (.union_vi i)) ++ more = encInt 2 ++ (encInt i ++ more) by
        simp [encEntry, valueKeyOf, encValuePayload]]
      rw [decodeEntries_encInt 2 (by norm_num [int64Range]) cnt r _]
      have hd : decodeEntry 2 r (encInt i ++ more) =
          .ok ({ r with u := some (.union_vi i) }, more) := by
        simp [decodeEntry, hp, readNum_encInt i more hi]
      rw [hd]
      rfl
    | union_vf bits =>
      have hb : bits < 2 ^ 64 := hval
      rw [show encEntry (.v (.union_vf bits)) ++ more = encInt 2 ++ (encFloat bits ++ more) by
        simp [encEntry, valueKeyOf, encValuePayload]]
      rw [decodeEntries_encInt 2 (by norm_num [int64Range]) cnt r _]
      have hd : decodeEntry 2 r (encFloat bits ++ more) =
          .ok ({ r with u := some (.union_vf bits) }, more) := by
        simp [decodeEntry, hp, readNum_encFloat bits more hb]
      rw [hd]
      rfl
    | union_vs s =>
      have hs : validStr s := hval
      rw [show encEntry (.v (.union_vs s)) ++ more = encInt 3 ++ (encTstr s ++ more) by
        simp [encEntry, valueKeyOf, encValuePayload]]
      rw [decodeEntries_encInt 3 (by norm_num [int64Range]) cnt r _]
      have hd : decodeEntry 3 r (encTstr s ++ more) =
          .ok ({ r with u := some (.union_vs s) }, more) := by
        simp [decodeEntry, hp, readText_encTstr s more hs.2]
      rw [hd]
      rfl
    | union_vb b =>
      rw [show encEntry (.v (.union_vb b)) ++ more = encInt 4 ++ (encBool b ++ more) by
        simp [encEntry, valueKeyOf, encValuePayload]]
      rw [decodeEntries_encInt 4 (by norm_num [int64Range]) cnt r _]
      have hd : decodeEntry 4 r (encBool b ++ more) =
          .ok ({ r with u := some (.union_vb b) }, more) := by
        simp [decodeEntry, hp, readBool_encBool b more]
      rw [hd]
      rfl
    | union_vd s =>
      have hs : validStr s := hval
      rw [show encEntry (.v (.union_vd s)) ++ more = encInt 8 ++ (encBstr s ++ more) by
        simp [encEntry, valueKeyOf, encValuePayload]]
      rw [decodeEntries_encInt 8 (by norm_num [int64Range]) cnt r _]
      have hd : decodeEntry 8 r (encBstr s ++ more) =
          .ok ({ r with u := some (.union_vd s) }, more) := by
        simp [decodeEntry, hp, readBstr_encBstr s more hs.2]
      rw [hd]
      rfl
    | union_vlo s =>
      have hs : validStr s := hval
      rw [show encEntry (.v (.union_vlo s)) ++ more = encInt 9 ++ (encTstr s ++ more) by
        simp [encEntry, valueKeyOf, encValuePayload]]
      rw [decodeEntries_encInt 9 (by norm_num [int64Range]) cnt r _]
      have hd : decodeEntry 9 r (encTstr s ++ more) =
          .ok ({ r with u := some (.union_vlo s) }, more) := by
        simp [decodeEntry, hp, readText_encTstr s more hs.2]
      rw [hd]
      rfl
  | ext p =>
    have hp : r.kv.length < 5 := hpre
    obtain ⟨hint, hnot, hv⟩ := hval
    have hk64 : int64Range p.key := by
      simp [isInt32] at hint
      constructor <;> omega
    simp only [stdKeys, List.mem_cons, List.mem_singleton, not_or] at hnot
    rw [show encEntry (.ext p) ++ more = encInt p.key ++ (encExtValue p.value ++ more) by
      simp [encEntry]]
    rw [decodeEntries_encInt p.key hk64 cnt r _]
    have hd : decodeEntry p.key r (encExtValue p.value ++ more) =
        .ok ({ r with kv := r.kv ++ [p] }, more) := by
      simp [decodeEntry, hnot.1, hnot.2.1, hnot.2.2.1, hnot.2.2.2.1, hnot.2.2.2.2.1,
        hnot.2.2.2.2.2.1, hnot.2.2.2.2.2.2.1, hnot.2.2.2.2.2.2.2.1, hnot.2.2.2.2.2.2.2.2,
        hint, Nat.not_le.mpr hp, readExtValue_encExtValue p.value more hv]
    rw [hd]
    rfl

theorem chainPre_append (xs : List Entry) : ∀ (ys : List Entry) (r : record),
    chainPre (xs ++ ys) r ↔ chainPre xs r ∧ chainPre ys (xs.foldl applyEntry r) := by
  induction xs with
  | nil => intro ys r; simp [chainPre]
  | cons e es ih => intro ys r; simp [chainPre, ih, and_assoc]

theorem decodeEntries_chain (es : List Entry) : ∀ (cnt : Nat) (r : record) (more : List Byte),
    chainPre es r → (∀ e ∈ es, validEntry e) →
    decodeEntries (es.length + cnt) r ((es.map encEntry).flatten ++ more) =
      decodeEntries cnt (es.foldl applyEntry r) more := by
  induction es with
  | nil => intro cnt r more _ _; simp
  | cons e es ih =>
    intro cnt r more hchain hval
    have h1 : (((e :: es).map encEntry).flatten ++ more)
        = encEntry e ++ ((es.map encEntry).flatten ++ more) := by simp
    rw [h1]
    have h2 : (e :: es).length + cnt = (es.length + cnt) + 1 := by simp [Nat.add_right_comm]
    rw [h2]
    rw [decodeEntries_step e (es.length + cnt) r _ hchain.1 (hval e (by simp))]
    exact ih cnt (applyEntry r e) more hchain.2 (fun x hx => hval x (by simp [hx]))

theorem foldl_ext (kvs : List key_value_pair) : ∀ (r : record),
    (kvs.map Entry.ext).foldl applyEntry r = { r with kv := r.kv ++ kvs } := by
  induction kvs with
  | nil => intro r; simp
  | cons p ps ih => intro r; simp [applyEntry, ih]

theorem chainPre_ext (kvs : List key_value_pair) : ∀ (r : record),
    r.kv.length + kvs.length ≤ 5 → chainPre (kvs.map Entry.ext) r := by
  induction kvs with
  | nil => intro r _; trivial
  | cons p ps ih =>
    intro r h
    refine ⟨?_, ?_⟩
    · show r.kv.length < 5
      simp at h
      omega
    · apply ih
      simp [applyEntry] at h ⊢
      omega

theorem foldl_entriesOf (r : record) :
    (entriesOf r).foldl applyEntry emptyRecord = r := by
  obtain ⟨obn, obt, onm, ot, ou, kv⟩ := r
  cases obn <;> cases obt <;> cases onm <;> cases ot <;> cases ou <;>
    simp [entriesOf, optEntry, List.foldl_append, applyEntry, foldl_ext, emptyRecord]

theorem chainPre_entriesOf (r : record) (h5 : r.kv.length ≤ 5) :
    chainPre (entriesOf r) emptyRecord := by
  obtain ⟨obn, obt, onm, ot, ou, kv⟩ := r
  simp only at h5
  cases obn <;> cases obt <;> cases onm <;> cases ot <;> cases ou <;>
    simp [entriesOf, optEntry, chainPre_append, chainPre, entryPre, applyEntry, emptyRecord] <;>
    exact chainPre_ext kv _ (by simp [emptyRecord, applyEntry]; omega)

theorem mem_optEntry {f : α → Entry} {o : Option α} {e : Entry} (h : e ∈ optEntry f o) :
    ∃ x, o = some x ∧ e = f x := by
  cases o with
  | none => simp [optEntry] at h
  | some a =>
    simp [optEntry] at h
    exact ⟨a, rfl, h⟩

theorem validEntry_entriesOf (r : record) (hv : validRecord r) :
    ∀ e ∈ entriesOf r, validEntry e := by
  obtain ⟨h1, h2, h3, h4, h5, _, h7⟩ := hv
  intro e he
  simp only [entriesOf, List.append_assoc, List.mem_append] at he
  rcases he with hbn | hbt | hn | ht | hu | hext
  · obtain ⟨x, hx, rfl⟩ := mem_optEntry hbn
    exact h1 x (by simp [hx])
  · obtain ⟨x, hx, rfl⟩ := mem_optEntry hbt
    exact h2 x (by simp [hx])
  · obtain ⟨x, hx, rfl⟩ := mem_optEntry hn
    exact h3 x (by simp [hx])
  · obtain ⟨x, hx, rfl⟩ := mem_optEntry ht
    exact h4 x (by simp [hx])
  · obtain ⟨x, hx, rfl⟩ := mem_optEntry hu
    exact h5 x (by simp [hx])
  · obtain ⟨p, hp, rfl⟩ := List.mem_map.mp hext
    exact h7 p hp

theorem length_entriesOf_le (r : record) (h5 : r.kv.length ≤ 5) :
    (entriesOf r).length ≤ 10 := by
  obtain ⟨obn, obt, onm, ot, ou, kv⟩ := r
  simp only at h5
  cases obn <;> cases obt <;> cases onm <;> cases ot <;> cases ou <;>
    simp [entriesOf, optEntry] <;> omega

theorem decodeRecord_encRecord (r : record) (hv : validRecord r) (more : List Byte) :
    decodeRecord (encRecord r ++ more) = .ok (r, more) := by
  have h5 : r.kv.length ≤ 5 := hv.2.2.2.2.2.1
  have hlen : (entriesOf r).length < 2 ^ 64 := by
    have := length_entriesOf_le r h5
    omega
  unfold encRecord
  rw [List.append_assoc]
  simp only [decodeRecord]
  rw [readHead_cborHead 5 (entriesOf r).length _ hlen]
  simp only [reduceIte]
  have hN : (entriesOf r).length = (entriesOf r).length + 0 := rfl
  rw [hN, decodeEntries_chain (entriesOf r) 0 emptyRecord more
    (chainPre_entriesOf r h5) (validEntry_entriesOf r hv)]
  rw [foldl_entriesOf r]
  rfl

theorem decodeRecords_enc (rs : List record) : ∀ (more : List Byte),
    (∀ r ∈ rs, validRecord r) →
    decodeRecords rs.length ((rs.map encRecord).flatten ++ more) = .ok (rs, more) := by
  induction rs with
  | nil => intro more _; simp [decodeRecords]
  | cons r rs ih =>
    intro more hv
    have h1 : ((r :: rs).map encRecord).flatten ++ more
        = encRecord r ++ ((rs.map encRecord).flatten ++ more) := by simp
    rw [h1]
    simp only [List.length_cons, decodeRecords]
    simp only [decodeRecord_encRecord r (hv r (by simp)) _,
      ih _ (fun x hx => hv x (by simp [hx]))]

theorem encode_validPack (p : lwm2m_senml) (hv : validPack p) :
    encode p = .ok (encodeBytes p) := by
  obtain ⟨hlen, hrec⟩ := hv
  unfold encode
  rw [if_neg (by omega)]
  rw [if_neg ?_]
  simp only [List.any_eq_true, not_exists]
  intro r
  simp only [decide_eq_true_eq, not_and]
  intro hr
  have := (hrec r hr).2.2.2.2.2.1
  omega

theorem decode_encodeBytes (p : lwm2m_senml) (hv : validPack p) :
    decode (encodeBytes p) = .ok p := by
  obtain ⟨hlen, hrec⟩ := hv
  unfold decode decodeCore encodeBytes
  rw [readHead_cborHead 4 p.records.length _ (by omega)]
  simp only [reduceIte]
  rw [if_neg (by omega)]
  have h1 : (p.records.map encRecord).flatten = (p.records.map encRecord).flatten ++ [] := by
    simp
  rw [h1, decodeRecords_enc p.records [] hrec]
  rfl

/-! ## Resolver characterization -/

theorem keep_none (o : Option α) : keep o none = o := by
  cases o <;> rfl

theorem findSome?_singleton (f : record → Option α) (r : record) :
    [r].findSome? f = f r := by
  cases h : f r <;> simp [List.findSome?, h]

theorem keep_findSome?_append (A : List record) (r0 : record) (f : record → Option α)
    (o : Option α) :
    keep ((A ++ [r0]).findSome? f) o = keep (A.findSome? f) (keep (f r0) o) := by
  induction A with
  | nil =>
    rw [List.nil_append, findSome?_singleton]
    rfl
  | cons x xs ih =>
    cases h : f x with
    | some a =>
      simp only [List.cons_append, List.findSome?_cons, h]
      rfl
    | none =>
      simp only [List.cons_append, List.findSome?_cons, h]
      exact ih

theorem resolveGo_get? (rs : List record) : ∀ (cbn : Option (List Byte)) (cbt : Option Int)
    (i : Nat) (r : record), rs.get? i = some r →
    (resolveGo cbn cbt rs).get? i =
      some (effName (keep (baseAt (fun x => x.bn) rs i) cbn) r.n,
        (keep (baseAt (fun x => x.bt) rs i) cbt).getD 0 + r.t.getD 0) := by
  induction rs with
  | nil => intro cbn cbt i r h; simp at h
  | cons r0 rs ih =>
    intro cbn cbt i r h
    cases i with
    | zero =>
      simp only [List.get?] at h
      cases h
      simp only [resolveGo, List.get?, baseAt, List.take, List.take_zero, List.reverse_cons,
        List.reverse_nil, List.nil_append, findSome?_singleton]
    | succ i =>
      simp only [List.get?] at h
      have hlhs : (resolveGo cbn cbt (r0 :: rs)).get? (i + 1)
          = (resolveGo (keep r0.bn cbn) (keep r0.bt cbt) rs).get? i := rfl
      rw [hlhs, ih (keep r0.bn cbn) (keep r0.bt cbt) i r h]
      have hbn : keep (baseAt (fun x => x.bn) (r0 :: rs) (i + 1)) cbn
          = keep (baseAt (fun x => x.bn) rs i) (keep r0.bn cbn) := by
        simp only [baseAt, List.take, List.reverse_cons]
        exact keep_findSome?_append _ r0 _ cbn
      have hbt : keep (baseAt (fun x => x.bt) (r0 :: rs) (i + 1)) cbt
          = keep (baseAt (fun x => x.bt) rs i) (keep r0.bt cbt) := by
        simp only [baseAt, List.take, List.reverse_cons]
        exact keep_findSome?_append _ r0 _ cbt
      rw [hbn, hbt]

theorem resolve_get? (p : lwm2m_senml) (i : Nat) (r : record)
    (h : p.records.get? i = some r) :
    (resolve p).get? i =
      some (effName (baseAt (fun x => x.bn) p.records i) r.n,
        (baseAt (fun x => x.bt) p.records i).getD 0 + r.t.getD 0) := by
  rw [resolve, resolveGo_get? p.records none none i r h, keep_none, keep_none]

/-! ## Canonical minimality of the head encoding -/

theorem beBytes_length (k : Nat) : ∀ a, (beBytes k a).length = k := by
  induction k with
  | zero => intro a; rfl
  | succ k ih => intro a; simp [beBytes, ih]

theorem cborHead_length (m a : Nat) :
    (cborHead m a).length =
      if a < 24 then 1 else if a < 2 ^ 8 then 2 else if a < 2 ^ 16 then 3
      else if a < 2 ^ 32 then 5 else 9 := by
  unfold cborHead
  split_ifs <;> simp [beBytes_length]

theorem takeBe_ok_length (k : Nat) : ∀ (acc : Nat) (bs : List Byte) (v : Nat)
    (rest : List Byte), takeBe k acc bs = .ok (v, rest) → bs.length = k + rest.length := by
  induction k with
  | zero =>
    intro acc bs v rest h
    simp [takeBe] at h
    simp [h.2]
  | succ k ih =>
    intro acc bs v rest h
    cases bs with
    | nil => simp [takeBe] at h
    | cons b tl =>
      have := ih (256 * acc + b) tl v rest h
      simp [this]
      omega

theorem takeBe_ok_lt (k : Nat) : ∀ (acc : Nat) (bs : List Byte) (v : Nat) (rest : List Byte),
    (∀ b ∈ bs, b < 256) → takeBe k acc bs = .ok (v, rest) →
    v < acc * 256 ^ k + 256 ^ k := by
  induction k with
  | zero =>
    intro acc bs v rest _ h
    simp [takeBe] at h
    omega
  | succ k ih =>
    intro acc bs v rest hb h
    cases bs with
    | nil => simp [takeBe] at h
    | cons b tl =>
      have hb2 : b < 256 := hb b (by simp)
      have hih := ih (256 * acc + b) tl v rest (fun x hx => hb x (by simp [hx])) h
      have step : b * 256 ^ k ≤ 255 * 256 ^ k :=
        Nat.mul_le_mul_right (256 ^ k) (Nat.lt_succ_iff.mp hb2)
      calc v < (256 * acc + b) * 256 ^ k + 256 ^ k := hih
        _ = 256 * acc * 256 ^ k + (b * 256 ^ k + 256 ^ k) := by ring
        _ ≤ 256 * acc * 256 ^ k + (255 * 256 ^ k + 256 ^ k) := by
            exact Nat.add_le_add_left (Nat.add_le_add_right step _) _
        _ = acc * 256 ^ (k + 1) + 256 ^ (k + 1) := by
            rw [pow_succ]
            ring

theorem cborHead_minimal (m ai a : Nat) (bs : List Byte) (hb : ∀ b ∈ bs, b < 256)
    (h : readHead bs = .ok (m, ai, a, [])) : (cborHead m a).length ≤ bs.length := by
  cases bs with
  | nil => simp [readHead] at h
  | cons b tl =>
    have htl : ∀ x ∈ tl, x < 256 := fun x hx => hb x (by simp [hx])
    simp only [readHead] at h
    split_ifs at h with h1 h2 h3 h4 h5
    case pos =>
      simp only [Except.ok.injEq, Prod.mk.injEq] at h
      obtain ⟨hm, hai, ha, htl2⟩ := h
      have ha24 : a < 24 := by rw [← ha]; exact h1
      rw [cborHead_length, if_pos ha24]
      simp
    case pos =>
      cases ht : takeBe 1 0 tl with
      | error e => rw [ht] at h; cases h
      | ok q =>
        obtain ⟨v, rest⟩ := q
        rw [ht] at h
        simp only [Except.ok.injEq, Prod.mk.injEq] at h
        obtain ⟨hm, hai, ha, hrest⟩ := h
        subst hrest
        have hlen := takeBe_ok_length 1 0 tl v [] ht
        have hlt := takeBe_ok_lt 1 0 tl v [] htl ht
        rw [cborHead_length]
        split_ifs <;> simp <;> omega
    case pos =>
      cases ht : takeBe 2 0 tl with
      | error e => rw [ht] at h; cases h
      | ok q =>
        obtain ⟨v, rest⟩ := q
        rw [ht] at h
        simp only [Except.ok.injEq, Prod.mk.injEq] at h
        obtain ⟨hm, hai, ha, hrest⟩ := h
        subst hrest
        have hlen := takeBe_ok_length 2 0 tl v [] ht
        have hlt := takeBe_ok_lt 2 0 tl v [] htl ht
        rw [cborHead_length]
        split_ifs <;> simp <;> omega
    case pos =>
      cases ht : takeBe 4 0 tl with
      | error e => rw [ht] at h; cases h
      | ok q =>
        obtain ⟨v, rest⟩ := q
        rw [ht] at h
        simp only [Except.ok.injEq, Prod.mk.injEq] at h
        obtain ⟨hm, hai, ha, hrest⟩ := h
        subst hrest
        have hlen := takeBe_ok_length 4 0 tl v [] ht
        have hlt := takeBe_ok_lt 4 0 tl v [] htl ht
        rw [cborHead_length]
        split_ifs <;> simp <;> omega
    case pos =>
      cases ht : takeBe 8 0 tl with
      | error e => rw [ht] at h; cases h
      | ok q =>
        obtain ⟨v, rest⟩ := q
        rw [ht] at h
        simp only [Except.ok.injEq, Prod.mk.injEq] at h
        obtain ⟨hm, hai, ha, hrest⟩ := h
        subst hrest
        have hlen := takeBe_ok_length 8 0 tl v [] ht
        rw [cborHead_length]
        split_ifs <;> simp <;> omega

/-! ## The decoder consumes a prefix and never over-reads -/

theorem takeBe_suffix (k : Nat) : ∀ (acc : Nat) (bs : List Byte) (v : Nat) (rest : List Byte),
    takeBe k acc bs = .ok (v, rest) → rest <:+ bs := by
  induction k with
  | zero =>
    intro acc bs v rest h
    simp [takeBe] at h
    exact h.2 ▸ List.suffix_refl bs
  | succ k ih =>
    intro acc bs v rest h
    cases bs with
    | nil => simp [takeBe] at h
    | cons b tl => exact (ih (256 * acc + b) tl v rest h).trans (List.suffix_cons b tl)

theorem readHead_suffix (bs : List Byte) (m ai a : Nat) (rest : List Byte)
    (h : readHead bs = .ok (m, ai, a, rest)) : rest <:+ bs := by
  cases bs with
  | nil => simp [readHead] at h
  | cons b tl =>
    simp only [readHead] at h
    split_ifs at h
    case pos =>
      cases h
      exact List.suffix_cons _ _
    case pos =>
      cases ht : takeBe 1 0 tl with
      | error e => rw [ht] at h; cases h
      | ok q =>
        obtain ⟨v, r1⟩ := q
        rw [ht] at h
        cases h
        exact (takeBe_suffix 1 _ _ _ _ ht).trans (List.suffix_cons _ _)
    case pos =>
      cases ht : takeBe 2 0 tl with
      | error e => rw [ht] at h; cases h
      | ok q =>
        obtain ⟨v, r1⟩ := q
        rw [ht] at h
        cases h
        exact (takeBe_suffix 2 _ _ _ _ ht).trans (List.suffix_cons _ _)
    case pos =>
      cases ht : takeBe 4 0 tl with
      | error e => rw [ht] at h; cases h
      | ok q =>
        obtain ⟨v, r1⟩ := q
        rw [ht] at h
        cases h
        exact (takeBe_suffix 4 _ _ _ _ ht).trans (List.suffix_cons _ _)
    case pos =>
      cases ht : takeBe 8 0 tl with
      | error e => rw [ht] at h; cases h
      | ok q =>
        obtain ⟨v, r1⟩ := q
        rw [ht] at h
        cases h
        exact (takeBe_suffix 8 _ _ _ _ ht).trans (List.suffix_cons _ _)

theorem readBytes_suffix (k : Nat) : ∀ (bs s rest : List Byte),
    readBytes k bs = .ok (s, rest) → rest <:+ bs := by
  induction k with
  | zero =>
    intro bs s rest h
    simp [readBytes] at h
    exact h.2 ▸ List.suffix_refl bs
  | succ k ih =>
    intro bs s rest h
    cases bs with
    | nil => simp [readBytes] at h
    | cons b tl =>
      simp only [readBytes] at h
      cases hr : readBytes k tl with
      | error e => rw [hr] at h; cases h
      | ok q =>
        obtain ⟨s2, r2⟩ := q
        rw [hr] at h
        simp only [Except.ok.injEq, Prod.mk.injEq] at h
        obtain ⟨_, hrest⟩ := h
        subst hrest
        exact (ih tl s2 r2 hr).trans (List.suffix_cons b tl)

theorem readText_suffix (input s rest : List Byte)
    (h : readText input = .ok (s, rest)) : rest <:+ input := by
  unfold readText at h
  cases hh : readHead input with
  | error e => rw [hh] at h; cases h
  | ok q =>
    obtain ⟨m, ai, len, r1⟩ := q
    simp only [hh] at h
    split_ifs at h
    exact (readBytes_suffix len r1 s rest h).trans (readHead_suffix input m ai len r1 hh)

theorem readBstr_suffix (input s rest : List Byte)
    (h : readBstr input = .ok (s, rest)) : rest <:+ input := by
  unfold readBstr at h
  cases hh : readHead input with
  | error e => rw [hh] at h; cases h
  | ok q =>
    obtain ⟨m, ai, len, r1⟩ := q
    simp only [hh] at h
    split_ifs at h
    exact (readBytes_suffix len r1 s rest h).trans (readHead_suffix input m ai len r1 hh)

theorem readInt_suffix (input : List Byte) (i : Int) (rest : List Byte)
    (h : readInt input = .ok (i, rest)) : rest <:+ input := by
  unfold readInt at h
  cases hh : readHead input with
  | error e => rw [hh] at h; cases h
  | ok q =>
    obtain ⟨m, ai, a, r1⟩ := q
    simp only [hh] at h
    split_ifs at h <;>
      (simp only [Except.ok.injEq, Prod.mk.injEq] at h
       exact h.2 ▸ readHead_suffix input m ai a r1 hh)

theorem readNum_suffix (input : List Byte) (u : record_union_) (rest : List Byte)
    (h : readNum input = .ok (u, rest)) : rest <:+ input := by
  unfold readNum at h
  cases hh : readHead input with
  | error e => rw [hh] at h; cases h
  | ok q =>
    obtain ⟨m, ai, a, r1⟩ := q
    simp only [hh] at h
    split_ifs at h <;>
      (simp only [Except.ok.injEq, Prod.mk.injEq] at h
       exact h.2 ▸ readHead_suffix input m ai a r1 hh)

theorem readBool_suffix (input : List Byte) (b : Bool) (rest : List Byte)
    (h : readBool input = .ok (b, rest)) : rest <:+ input := by
  unfold readBool at h
  cases hh : readHead input with
  | error e => rw [hh] at h; cases h
  | ok q =>
    obtain ⟨m, ai, a, r1⟩ := q
    simp only [hh] at h
    split_ifs at h <;>
      (simp only [Except.ok.injEq, Prod.mk.injEq] at h
       exact h.2 ▸ readHead_suffix input m ai a r1 hh)

theorem readExtValue_suffix (input : List Byte) (v : value_) (rest : List Byte)
    (h : readExtValue input = .ok (v, rest)) : rest <:+ input := by
  unfold readExtValue at h
  cases hh : readHead input with
  | error e => rw [hh] at h; cases h
  | ok q =>
    obtain ⟨m, ai, a, r1⟩ := q
    simp only [hh] at h
    split_ifs at h <;>
      first
      | (cases hr : readBytes a r1 with
         | error e => rw [hr] at h; cases h
         | ok q2 =>
           obtain ⟨s2, r2⟩ := q2
           rw [hr] at h
           simp only [Except.ok.injEq, Prod.mk.injEq] at h
           exact h.2 ▸ (readBytes_suffix a r1 s2 r2 hr).trans
             (readHead_suffix input m ai a r1 hh))
      | (simp only [Except.ok.injEq, Prod.mk.injEq] at h
         exact h.2 ▸ readHead_suffix input m ai a r1 hh)

theorem decodeEntry_suffix (key : Int) (r : record) (input : List Byte) (r2 : record)
    (rest : List Byte) (h : decodeEntry key r input = .ok (r2, rest)) : rest <:+ input := by
  unfold decodeEntry at h
  by_cases hk0 : key = (-2 : Int)
  · rw [if_pos hk0] at h
    by_cases hs0 : r.bn.isSome = true
    · rw [if_pos hs0] at h
      cases h
    · rw [if_neg hs0] at h
      cases hx : readText input with
      | error e => rw [hx] at h; cases h
      | ok q =>
        obtain ⟨x1, r1⟩ := q
        rw [hx] at h
        simp only [Except.ok.injEq, Prod.mk.injEq] at h
        exact h.2 ▸ readText_suffix _ _ _ hx
  rw [if_neg hk0] at h
  by_cases hk1 : key = (-3 : Int)
  · rw [if_pos hk1] at h
    by_cases hs1 : r.bt.isSome = true
    · rw [if_pos hs1] at h
      cases h
    · rw [if_neg hs1] at h
      cases hx : readInt input with
      | error e => rw [hx] at h; cases h
      | ok q =>
        obtain ⟨x1, r1⟩ := q
        rw [hx] at h
        simp only [Except.ok.injEq, Prod.mk.injEq] at h
        exact h.2 ▸ readInt_suffix _ _ _ hx
  rw [if_neg hk1] at h
  by_cases hk2 : key = (0 : Int)
  · rw [if_pos hk2] at h
    by_cases hs2 : r.n.isSome = true
    · rw [if_pos hs2] at h
      cases h
    · rw [if_neg hs2] at h
      cases hx : readText input with
      | error e => rw [hx] at h; cases h
      | ok q =>
        obtain ⟨x1, r1⟩ := q
        rw [hx] at h
        simp only [Except.ok.injEq, Prod.mk.injEq] at h
        exact h.2 ▸ readText_suffix _ _ _ hx
  rw [if_neg hk2] at h
  by_cases hk3 : key = (6 : Int)
  · rw [if_pos hk3] at h
    by_cases hs3 : r.t.isSome = true
    · rw [if_pos hs3] at h
      cases h
    · rw [if_neg hs3] at h
      cases hx : readInt input with
      | error e => rw [hx] at h; cases h
      | ok q =>
        obtain ⟨x1, r1⟩ := q
        rw [hx] at h
        simp only [Except.ok.injEq, Prod.mk.injEq] at h
        exact h.2 ▸ readInt_suffix _ _ _ hx
  rw [if_neg hk3] at h
  by_cases hk4 : key = (2 : Int)
  · rw [if_pos hk4] at h
    by_cases hs4 : r.u.isSome = true
    · rw [if_pos hs4] at h
      cases h
    · rw [if_neg hs4] at h
      cases hx : readNum input with
      | error e => rw [hx] at h; cases h
      | ok q =>
        obtain ⟨x1, r1⟩ := q
        rw [hx] at h
        simp only [Except.ok.injEq, Prod.mk.injEq] at h
        exact h.2 ▸ readNum_suffix _ _ _ hx
  rw [if_neg hk4] at h
  by_cases hk5 : key = (3 : Int)
  · rw [if_pos hk5] at h
    by_cases hs5 : r.u.isSome = true
    · rw [if_pos hs5] at h
      cases h
    · rw [if_neg hs5] at h
      cases hx : readText input with
      | error e => rw [hx] at h; cases h
      | ok q =>
        obtain ⟨x1, r1⟩ := q
        rw [hx] at h
        simp only [Except.ok.injEq, Prod.mk.injEq] at h
        exact h.2 ▸ readText_suffix _ _ _ hx
  rw [if_neg hk5] at h
  by_cases hk6 : key = (4 : Int)
  · rw [if_pos hk6] at h
    by_cases hs6 : r.u.isSome = true
    · rw [if_pos hs6] at h
      cases h
    · rw [if_neg hs6] at h
      cases hx : readBool input with
      | error e => rw [hx] at h; cases h
      | ok q =>
        obtain ⟨x1, r1⟩ := q
        rw [hx] at h
        simp only [Except.ok.injEq, Prod.mk.injEq] at h
        exact h.2 ▸ readBool_suffix _ _ _ hx
  rw [if_neg hk6] at h
  by_cases hk7 : key = (8 : Int)
  · rw [if_pos hk7] at h
    by_cases hs7 : r.u.isSome = true
    · rw [if_pos hs7] at h
      cases h
    · rw [if_neg hs7] at h
      cases hx : readBstr input with
      | error e => rw [hx] at h; cases h
      | ok q =>
        obtain ⟨x1, r1⟩ := q
        rw [hx] at h
        simp only [Except.ok.injEq, Prod.mk.injEq] at h
        exact h.2 ▸ readBstr_suffix _ _ _ hx
  rw [if_neg hk7] at h
  by_cases hk8 : key = (9 : Int)
  · rw [if_pos hk8] at h
    by_cases hs8 : r.u.isSome = true
    · rw [if_pos hs8] at h
      cases h
    · rw [if_neg hs8] at h
      cases hx : readText input with
      | error e => rw [hx] at h; cases h
      | ok q =>
        obtain ⟨x1, r1⟩ := q
        rw [hx] at h
        simp only [Except.ok.injEq, Prod.mk.injEq] at h
        exact h.2 ▸ readText_suffix _ _ _ hx
  rw [if_neg hk8] at h
  by_cases hk9 : isInt32 key = true
  · rw [if_pos hk9] at h
    by_cases hs9 : 5 ≤ r.kv.length
    · rw [if_pos hs9] at h
      cases h
    · rw [if_neg hs9] at h
      cases hx : readExtValue input with
      | error e => rw [hx] at h; cases h
      | ok q =>
        obtain ⟨x1, r1⟩ := q
        rw [hx] at h
        simp only [Except.ok.injEq, Prod.mk.injEq] at h
        exact h.2 ▸ readExtValue_suffix _ _ _ hx
  · rw [if_neg hk9] at h
    cases h

theorem decodeEntries_suffix (cnt : Nat) : ∀ (r : record) (input : List Byte) (r2 : record)
    (rest : List Byte), decodeEntries cnt r input = .ok (r2, rest) → rest <:+ input := by
  induction cnt with
  | zero =>
    intro r input r2 rest h
    simp [decodeEntries] at h
    exact h.2 ▸ List.suffix_refl input
  | succ cnt ih =>
    intro r input r2 rest h
    simp only [decodeEntries] at h
    cases hh : readHead input with
    | error e => rw [hh] at h; cases h
    | ok q =>
      obtain ⟨m, ai, a, r1⟩ := q
      simp only [hh] at h
      split_ifs at h with hm0 hm1
      · cases hd : decodeEntry (a : Int) r r1 with
        | error e => rw [hd] at h; cases h
        | ok q2 =>
          obtain ⟨r3, r4⟩ := q2
          rw [hd] at h
          exact ((ih r3 r4 r2 rest h).trans
            (decodeEntry_suffix _ r r1 r3 r4 hd)).trans
            (readHead_suffix input m ai a r1 hh)
      · cases hd : decodeEntry (-1 - (a : Int)) r r1 with
        | error e => rw [hd] at h; cases h
        | ok q2 =>
          obtain ⟨r3, r4⟩ := q2
          rw [hd] at h
          exact ((ih r3 r4 r2 rest h).trans
            (decodeEntry_suffix _ r r1 r3 r4 hd)).trans
            (readHead_suffix input m ai a r1 hh)

theorem decodeRecord_suffix (input : List Byte) (r : record) (rest : List Byte)
    (h : decodeRecord input = .ok (r, rest)) : rest <:+ input := by
  unfold decodeRecord at h
  cases hh : readHead input with
  | error e => rw [hh] at h; cases h
  | ok q =>
    obtain ⟨m, ai, size, r1⟩ := q
    simp only [hh] at h
    split_ifs at h
    exact (decodeEntries_suffix size emptyRecord r1 r rest h).trans
      (readHead_suffix input m ai size r1 hh)

theorem decodeRecords_suffix (cnt : Nat) : ∀ (input : List Byte) (rs : List record)
    (rest : List Byte), decodeRecords cnt input = .ok (rs, rest) → rest <:+ input := by
  induction cnt with
  | zero =>
    intro input rs rest h
    simp [decodeRecords] at h
    exact h.2 ▸ List.suffix_refl input
  | succ cnt ih =>
    intro input rs rest h
    simp only [decodeRecords] at h
    cases hr : decodeRecord input with
    | error e => rw [hr] at h; cases h
    | ok q =>
      obtain ⟨r, r1⟩ := q
      simp only [hr] at h
      cases hrs : decodeRecords cnt r1 with
      | error e => rw [hrs] at h; cases h
      | ok q2 =>
        obtain ⟨rs2, r2⟩ := q2
        rw [hrs] at h
        simp only [Except.ok.injEq, Prod.mk.injEq] at h
        exact h.2 ▸ (ih r1 rs2 r2 hrs).trans (decodeRecord_suffix input r r1 hr)

theorem decodeCore_suffix (input : List Byte) (p : lwm2m_senml) (rest : List Byte)
    (h : decodeCore input = .ok (p, rest)) : rest <:+ input := by
  unfold decodeCore at h
  cases hh : readHead input with
  | error e => rw [hh] at h; cases h
  | ok q =>
    obtain ⟨m, ai, len, r1⟩ := q
    simp only [hh] at h
    split_ifs at h
    cases hrs : decodeRecords len r1 with
    | error e => rw [hrs] at h; cases h
    | ok q2 =>
      obtain ⟨rs, r2⟩ := q2
      rw [hrs] at h
      simp only [Except.ok.injEq, Prod.mk.injEq] at h
      exact h.2 ▸ (decodeRecords_suffix len r1 rs r2 hrs).trans
        (readHead_suffix input m ai len r1 hh)

/-! ## Truncated payloads fail with MalformedEncoding -/

theorem readBytes_short (k : Nat) : ∀ (bs : List Byte), bs.length < k →
    readBytes k bs = .error .MalformedEncoding := by
  induction k with
  | zero => intro bs h; omega
  | succ k ih =>
    intro bs h
    cases bs with
    | nil => rfl
    | cons b tl =>
      simp only [readBytes]
      rw [ih tl (by simp at h; omega)]

theorem decode_truncated (len : Nat) (s : List Byte) (hs : s.length < len)
    (hlen : len < 2 ^ 64) :
    decode ([129, 161, 0] ++ (cborHead 3 len ++ s)) = .error .MalformedEncoding := by
  have hrt : readText (cborHead 3 len ++ s) = .error .MalformedEncoding := by
    unfold readText
    rw [readHead_cborHead 3 len s hlen]
    simp [readBytes_short len s hs]
  have hde : decodeEntry 0 emptyRecord (cborHead 3 len ++ s) = .error .MalformedEncoding := by
    simp [decodeEntry, emptyRecord, hrt]
  have h0 : readHead (0 :: (cborHead 3 len ++ s)) = .ok (0, 0, 0, cborHead 3 len ++ s) := by
    norm_num [readHead]
  have hents : decodeEntries 1 emptyRecord (0 :: (cborHead 3 len ++ s))
      = .error .MalformedEncoding := by
    simp [decodeEntries, h0, hde]
  have h161 : readHead (161 :: 0 :: (cborHead 3 len ++ s))
      = .ok (5, 1, 1, 0 :: (cborHead 3 len ++ s)) := by
    norm_num [readHead]
  have hrec : decodeRecord (161 :: 0 :: (cborHead 3 len ++ s))
      = .error .MalformedEncoding := by
    simp [decodeRecord, h161, hents]
  have hrecs : decodeRecords 1 (161 :: 0 :: (cborHead 3 len ++ s))
      = .error .MalformedEncoding := by
    simp [decodeRecords, hrec]
  have h129 : readHead (129 :: 161 :: 0 :: (cborHead 3 len ++ s))
      = .ok (4, 1, 1, 161 :: 0 :: (cborHead 3 len ++ s)) := by
    norm_num [readHead]
  simp [decode, decodeCore, h129, hrecs, Except.map]

theorem encEntry_eq (e : Entry) : encEntry e = encInt (entryKey e) ++ entryPayload e := by
  cases e <;> rfl

theorem entryKey_int64 (e : Entry) (hv : validEntry e) : int64Range (entryKey e) := by
  cases e with
  | bn s => norm_num [entryKey, int64Range]
  | bt i => norm_num [entryKey, int64Range]
  | n s => norm_num [entryKey, int64Range]
  | t i => norm_num [entryKey, int64Range]
  | v u => cases u <;> norm_num [entryKey, valueKeyOf, int64Range]
  | ext p =>
    have hint : isInt32 p.key = true := hv.1
    simp [isInt32] at hint
    constructor <;> simp [entryKey] <;> omega

theorem decodeEntry_applyEntry_dup (e : Entry) (he : isStdEntry e = true) (r0 : record)
    (input : List Byte) :
    decodeEntry (entryKey e) (applyEntry r0 e) input = .error .DuplicateField := by
  cases e with
  | bn s => simp [entryKey, decodeEntry, applyEntry]
  | bt i => simp [entryKey, decodeEntry, applyEntry]
  | n s => simp [entryKey, decodeEntry, applyEntry]
  | t i => simp [entryKey, decodeEntry, applyEntry]
  | v u => cases u <;> simp [entryKey, valueKeyOf, decodeEntry, applyEntry]
  | ext p => simp [isStdEntry] at he

theorem decode_dup (e : Entry) (he : isStdEntry e = true) (hv : validEntry e)
    (hpre : entryPre e emptyRecord) (junk : List Byte) :
    decode (cborHead 4 1 ++ (cborHead 5 2 ++ (encEntry e ++ (encEntry e ++ junk))))
      = .error .DuplicateField := by
  have h2 : decodeEntries 1 (applyEntry emptyRecord e) (encEntry e ++ junk)
      = .error .DuplicateField := by
    rw [encEntry_eq, List.append_assoc]
    rw [decodeEntries_encInt (entryKey e) (entryKey_int64 e hv) 0 _ _]
    rw [decodeEntry_applyEntry_dup e he emptyRecord _]
  have h1 : decodeEntries 2 emptyRecord (encEntry e ++ (encEntry e ++ junk))
      = .error .DuplicateField := by
    rw [show (2 : Nat) = 1 + 1 from rfl, decodeEntries_step e 1 emptyRecord _ hpre hv, h2]
  have hrec : decodeRecord (cborHead 5 2 ++ (encEntry e ++ (encEntry e ++ junk)))
      = .error .DuplicateField := by
    unfold decodeRecord
    rw [readHead_cborHead 5 2 _ (by norm_num)]
    simp [h1]
  have hrecs : decodeRecords 1 (cborHead 5 2 ++ (encEntry e ++ (encEntry e ++ junk)))
      = .error .DuplicateField := by
    simp [decodeRecords, hrec]
  unfold decode decodeCore
  rw [readHead_cborHead 4 1 _ (by norm_num)]
  simp [hrecs, Except.map]

theorem decode_unsupported (k : Nat) (hk : 2 ^ 31 ≤ k) (hk2 : k < 2 ^ 64)
    (junk : List Byte) :
    decode (cborHead 4 1 ++ (cborHead 5 1 ++ (cborHead 0 k ++ junk)))
      = .error .UnsupportedField := by
  have hde : decodeEntry (k : Int) emptyRecord junk = .error .UnsupportedField := by
    unfold decodeEntry
    repeat rw [if_neg (by omega)]
    rw [if_neg (by simp [isInt32] ; omega)]
  have hents : decodeEntries 1 emptyRecord (cborHead 0 k ++ junk)
      = .error .UnsupportedField := by
    simp only [decodeEntries]
    rw [readHead_cborHead 0 k junk hk2]
    simp [hde]
  have hrec : decodeRecord (cborHead 5 1 ++ (cborHead 0 k ++ junk))
      = .error .UnsupportedField := by
    unfold decodeRecord
    rw [readHead_cborHead 5 1 _ (by norm_num)]
    simp [hents]
  have hrecs : decodeRecords 1 (cborHead 5 1 ++ (cborHead 0 k ++ junk))
      = .error .UnsupportedField := by
    simp [decodeRecords, hrec]
  unfold decode decodeCore
  rw [readHead_cborHead 4 1 _ (by norm_num)]
  simp [hrecs, Except.map]

theorem decode_mismatch (i : Int) (hi : int64Range i) (junk : List Byte) :
    decode ([129, 161, 0] ++ (encInt i ++ junk)) = .error .TypeMismatch := by
  have hrt : readText (encInt i ++ junk) = .error .TypeMismatch := by
    obtain ⟨m, a, hh, hcase⟩ := readHead_encInt i junk hi
    unfold readText
    rw [hh]
    rcases hcase with ⟨hm, _⟩ | ⟨hm, _⟩ <;> subst hm <;> norm_num
  have hde : decodeEntry 0 emptyRecord (encInt i ++ junk) = .error .TypeMismatch := by
    simp [decodeEntry, emptyRecord, hrt]
  have h0 : readHead (0 :: (encInt i ++ junk)) = .ok (0, 0, 0, encInt i ++ junk) := by
    norm_num [readHead]
  have hents : decodeEntries 1 emptyRecord (0 :: (encInt i ++ junk))
      = .error .TypeMismatch := by
    simp [decodeEntries, h0, hde]
  have h161 : readHead (161 :: 0 :: (encInt i ++ junk))
      = .ok (5, 1, 1, 0 :: (encInt i ++ junk)) := by
    norm_num [readHead]
  have hrec : decodeRecord (161 :: 0 :: (encInt i ++ junk)) = .error .TypeMismatch := by
    simp [decodeRecord, h161, hents]
  have hrecs : decodeRecords 1 (161 :: 0 :: (encInt i ++ junk)) = .error .TypeMismatch := by
    simp [decodeRecords, hrec]
  have h129 : readHead (129 :: 161 :: 0 :: (encInt i ++ junk))
      = .ok (4, 1, 1, 161 :: 0 :: (encInt i ++ junk)) := by
    norm_num [readHead]
  simp [decode, decodeCore, h129, hrecs, Except.map]

theorem decode_capacity (len : Nat) (h99 : 99 < len) (hlen : len < 2 ^ 64)
    (rest : List Byte) :
    decode (cborHead 4 len ++ rest) = .error .CapacityExceeded := by
  unfold decode decodeCore
  rw [readHead_cborHead 4 len rest hlen]
  simp [h99, Except.map]

theorem entriesOf_length (r : record) :
    (entriesOf r).length = presentCount r + r.kv.length := by
  obtain ⟨obn, obt, onm, ot, ou, kv⟩ := r
  cases obn <;> cases obt <;> cases onm <;> cases ot <;> cases ou <;>
    simp [entriesOf, optEntry, presentCount] <;> omega

theorem encEntry_v_eq (u : record_union_) : encEntry (.v u) = valueEntryBytes u := by
  cases u <;> rfl

theorem encRecord_layout (r : record) :
    encRecord r = cborHead 5 (presentCount r + r.kv.length) ++
      ((r.bn.elim [] fun s => [33] ++ encTstr s) ++
       ((r.bt.elim [] fun i => [34] ++ encInt i) ++
        ((r.n.elim [] fun s => [0] ++ encTstr s) ++
         ((r.t.elim [] fun i => [6] ++ encInt i) ++
          ((r.u.elim [] valueEntryBytes) ++
           ((r.kv.map fun p => encInt p.key ++ encExtValue p.value).flatten)))))) := by
  have e2 : encInt (-2) = [33] := rfl
  have e3 : encInt (-3) = [34] := rfl
  have e0 : encInt 0 = [0] := rfl
  have e6 : encInt 6 = [6] := rfl
  have hv2 : ∀ u : record_union_,
      valueEntryBytes u = encInt (valueKeyOf u) ++ encValuePayload u := fun u => by
    cases u <;> rfl
  have hext : (encEntry ∘ Entry.ext)
      = fun p : key_value_pair => encInt p.key ++ encExtValue p.value := funext fun p => rfl
  rw [encRecord, entriesOf_length]
  obtain ⟨obn, obt, onm, ot, ou, kv⟩ := r
  cases obn <;> cases obt <;> cases onm <;> cases ot <;> cases ou <;>
    simp [entriesOf, optEntry, encEntry, e2, e3, e0, e6, hv2, hext, Option.elim,
      List.append_assoc]

theorem encode_ok_of_bounds (p : lwm2m_senml) (h1 : p.records.length ≤ 99)
    (h2 : ∀ r ∈ p.records, r.kv.length ≤ 5) : encode p = .ok (encodeBytes p) := by
  unfold encode
  rw [if_neg (by omega)]
  rw [if_neg ?_]
  simp only [List.any_eq_true, not_exists]
  intro r
  simp only [decide_eq_true_eq, not_and]
  intro hr
  have := h2 r hr
  omega

theorem entryPre_emptyRecord (e : Entry) (he : isStdEntry e = true) :
    entryPre e emptyRecord := by
  cases e <;> first | rfl | simp [isStdEntry] at he

/-! ## The claims -/

/-- C1: for every valid Pack (at most 99 records, at most 5 extension
attributes per record, well-formed payloads), the encoder succeeds and
decoding the bytes it produced yields a Pack structurally equal to the
input, field for field. -/
theorem C1_roundtrip (p : lwm2m_senml) (hv : validPack p) :
    encode p = .ok (encodeBytes p) ∧ decode (encodeBytes p) = .ok p :=
  ⟨encode_validPack p hv, decode_encodeBytes p hv⟩

theorem C1_roundtrip_witness :
    validPack pack0 ∧
      (encode pack0 = .ok (encodeBytes pack0) ∧ decode (encodeBytes pack0) = .ok pack0) :=
  ⟨by decide, C1_roundtrip pack0 (by decide)⟩

/-- C2: within the record/extension bounds the encoder emits the pack as an
array of exactly as many elements as records; each record is a map whose
entry count is its number of present fields plus its extensions, with base
name under key -2 (byte 0x21) as text, base time under key -3 (byte 0x22) as
a signed integer, name under key 0 as text, time under key 6 as a signed
integer, the value under key 2/2/3/4/8/9 by variant, each extension under
its own integer key — and every absent field contributes no bytes. -/
theorem C2_layout (p : lwm2m_senml) (r : record) (h1 : p.records.length ≤ 99)
    (h2 : ∀ q ∈ p.records, q.kv.length ≤ 5) :
    encode p = .ok (cborHead 4 p.records.length ++ (p.records.map encRecord).flatten) ∧
    encRecord r = cborHead 5 (presentCount r + r.kv.length) ++
      ((r.bn.elim [] fun s => [33] ++ encTstr s) ++
       ((r.bt.elim [] fun i => [34] ++ encInt i) ++
        ((r.n.elim [] fun s => [0] ++ encTstr s) ++
         ((r.t.elim [] fun i => [6] ++ encInt i) ++
          ((r.u.elim [] valueEntryBytes) ++
           ((r.kv.map fun q => encInt q.key ++ encExtValue q.value).flatten)))))) :=
  ⟨encode_ok_of_bounds p h1 h2, encRecord_layout r⟩

theorem C2_layout_witness :
    pack0.records.length ≤ 99 ∧ (∀ q ∈ pack0.records, q.kv.length ≤ 5) ∧
      (encode pack0
          = .ok (cborHead 4 pack0.records.length ++ (pack0.records.map encRecord).flatten) ∧
        encRecord exRec1 = cborHead 5 (presentCount exRec1 + exRec1.kv.length) ++
          ((exRec1.bn.elim [] fun s => [33] ++ encTstr s) ++
           ((exRec1.bt.elim [] fun i => [34] ++ encInt i) ++
            ((exRec1.n.elim [] fun s => [0] ++ encTstr s) ++
             ((exRec1.t.elim [] fun i => [6] ++ encInt i) ++
              ((exRec1.u.elim [] valueEntryBytes) ++
               ((exRec1.kv.map fun q => encInt q.key ++ encExtValue q.value).flatten))))))) :=
  ⟨by decide, by decide, C2_layout pack0 exRec1 (by decide) (by decide)⟩

/-- C3: encoding a pack with more than 99 records, or with any record
holding more than 5 extension attributes, fails with `CapacityExceeded`
(the result is an error, so no byte is emitted); decoding any stream whose
outer array head declares a length above 99 fails with `CapacityExceeded`
for every continuation of the stream — in particular without reading any
record body. -/
theorem C3_capacity :
    (∀ p : lwm2m_senml, 99 < p.records.length → encode p = .error .CapacityExceeded) ∧
    (∀ (p : lwm2m_senml) (r : record), r ∈ p.records → 5 < r.kv.length →
      encode p = .error .CapacityExceeded) ∧
    (∀ (len : Nat) (rest : List Byte), 99 < len → len < 2 ^ 64 →
      decode (cborHead 4 len ++ rest) = .error .CapacityExceeded) := by
  refine ⟨?_, ?_, ?_⟩
  · intro p h
    unfold encode
    rw [if_pos h]
  · intro p r hm h5
    unfold encode
    by_cases h99 : 99 < p.records.length
    · rw [if_pos h99]
    · rw [if_neg h99, if_pos ?_]
      simp only [List.any_eq_true]
      exact ⟨r, hm, by simpa using h5⟩
  · intro len rest h99 hlen
    exact decode_capacity len h99 hlen rest

theorem C3_capacity_witness :
    encode ⟨List.replicate 100 emptyRecord⟩ = .error .CapacityExceeded ∧
      encode pack6ext = .error .CapacityExceeded ∧
      decode (cborHead 4 100 ++ [0]) = .error .CapacityExceeded :=
  ⟨C3_capacity.1 ⟨List.replicate 100 emptyRecord⟩ (by decide),
    C3_capacity.2.1 pack6ext rec6ext (by decide) (by decide),
    C3_capacity.2.2 100 [0] (by decide) (by decide)⟩

/-- C4: the resolver maps record `i` to the effective name built from the
base name most recently set at or before record `i` joined with the
record's own name, and the effective time equal to the base time most
recently set at or before record `i` (zero when never set) plus the
record's own time offset (zero when absent); on the spec section 8 example
pack it yields [("dev/temp", 1005), ("dev/humid", 1007)]. -/
theorem C4_resolver :
    (∀ (p : lwm2m_senml) (i : Nat) (r : record), p.records.get? i = some r →
      (resolve p).get? i =
        some (effName (baseAt (fun x => x.bn) p.records i) r.n,
          (baseAt (fun x => x.bt) p.records i).getD 0 + r.t.getD 0)) ∧
    resolve examplePack =
      [([100, 101, 118, 47, 116, 101, 109, 112], 1005),
       ([100, 101, 118, 47, 104, 117, 109, 105, 100], 1007)] :=
  ⟨fun p i r h => resolve_get? p i r h, by decide⟩

theorem C4_resolver_witness :
    examplePack.records.get? 1 = some exRec2 ∧
      (resolve examplePack).get? 1 =
        some (effName (baseAt (fun x => x.bn) examplePack.records 1) exRec2.n,
          (baseAt (fun x => x.bt) examplePack.records 1).getD 0 + exRec2.t.getD 0) :=
  ⟨by decide, C4_resolver.1 examplePack 1 exRec2 (by decide)⟩

/-- C5: the encoder is a function of the pack alone (equal logical content
gives byte-identical output), every head is written in the canonical form
that reads back exactly, and that canonical form is no longer than any
well-formed head that decodes to the same value — the minimal-length
encoding underpinning determinism. -/
theorem C5_deterministic :
    (∀ p q : lwm2m_senml, p = q → encode p = encode q) ∧
    (∀ (m a : Nat) (rest : List Byte), a < 2 ^ 64 →
      readHead (cborHead m a ++ rest) = .ok (m, aiOf a, a, rest)) ∧
    (∀ (m ai a : Nat) (bs : List Byte), (∀ b ∈ bs, b < 256) →
      readHead bs = .ok (m, ai, a, []) → (cborHead m a).length ≤ bs.length) :=
  ⟨fun _ _ h => by rw [h], fun m a rest ha => readHead_cborHead m a rest ha,
    fun m ai a bs hb h => cborHead_minimal m ai a bs hb h⟩

theorem C5_deterministic_witness :
    encode pack0 = encode pack0 ∧
      readHead (cborHead 3 300 ++ []) = .ok (3, aiOf 300, 300, []) ∧
      (cborHead 0 5).length ≤ ([24, 5] : List Byte).length :=
  ⟨C5_deterministic.1 pack0 pack0 rfl,
    C5_deterministic.2.1 3 300 [] (by decide),
    C5_deterministic.2.2 0 24 5 [24, 5] (by decide) (by decide)⟩

/-- C6: a standard-field entry repeated within one record map fails decode
with `DuplicateField`; a key outside both the standard table and the
`int32` extension-key namespace fails with `UnsupportedField` before its
payload is read; and key 0 (name) carrying an integer instead of text fails
with `TypeMismatch`. -/
theorem C6_errors :
    (∀ (e : Entry) (junk : List Byte), isStdEntry e = true → validEntry e →
      decode (cborHead 4 1 ++ (cborHead 5 2 ++ (encEntry e ++ (encEntry e ++ junk))))
        = .error .DuplicateField) ∧
    (∀ (k : Nat) (junk : List Byte), 2 ^ 31 ≤ k → k < 2 ^ 64 →
      decode (cborHead 4 1 ++ (cborHead 5 1 ++ (cborHead 0 k ++ junk)))
        = .error .UnsupportedField) ∧
    (∀ (i : Int) (junk : List Byte), int64Range i →
      decode ([129, 161, 0] ++ (encInt i ++ junk)) = .error .TypeMismatch) :=
  ⟨fun e junk he hv => decode_dup e he hv (entryPre_emptyRecord e he) junk,
    fun k junk hk hk2 => decode_unsupported k hk hk2 junk,
    fun i junk hi => decode_mismatch i hi junk⟩

theorem C6_errors_witness :
    isStdEntry (Entry.v (.union_vi 5)) = true ∧ validEntry (Entry.v (.union_vi 5)) ∧
      decode (cborHead 4 1 ++ (cborHead 5 2 ++
          (encEntry (Entry.v (.union_vi 5)) ++ (encEntry (Entry.v (.union_vi 5)) ++ []))))
        = .error .DuplicateField ∧
      decode (cborHead 4 1 ++ (cborHead 5 1 ++ (cborHead 0 (2 ^ 31) ++ [])))
        = .error .UnsupportedField ∧
      decode ([129, 161, 0] ++ (encInt 5 ++ [])) = .error .TypeMismatch :=
  ⟨by decide, by decide,
    C6_errors.1 (Entry.v (.union_vi 5)) [] (by decide) (by decide),
    C6_errors.2.1 (2 ^ 31) [] (by decide) (by decide),
    C6_errors.2.2 5 [] (by decide)⟩

/-- C7: whatever the decoder accepts it read from a prefix of the input —
the returned tail is a literal suffix of the input, so it never reads past
the end; a text payload whose declared length exceeds the remaining bytes
fails with the typed error `MalformedEncoding` (the decoder is a total
function, so every input produces a typed result, never a panic); and the
byte reader itself fails with `MalformedEncoding` rather than over-reading
whenever fewer bytes remain than demanded. -/
theorem C7_safety :
    (∀ (input : List Byte) (p : lwm2m_senml) (rest : List Byte),
      decodeCore input = .ok (p, rest) → rest <:+ input) ∧
    (∀ (len : Nat) (s : List Byte), s.length < len → len < 2 ^ 64 →
      decode ([129, 161, 0] ++ (cborHead 3 len ++ s)) = .error .MalformedEncoding) ∧
    (∀ (k : Nat) (bs : List Byte), bs.length < k →
      readBytes k bs = .error .MalformedEncoding) :=
  ⟨fun input p rest h => decodeCore_suffix input p rest h,
    fun len s hs hlen => decode_truncated len s hs hlen,
    fun k bs h => readBytes_short k bs h⟩

theorem C7_safety_witness :
    decodeCore [128, 7, 7] = .ok (⟨[]⟩, [7, 7]) ∧ [7, 7] <:+ [128, 7, 7] ∧
      ([1, 2] : List Byte).length < 5 ∧
      decode ([129, 161, 0] ++ (cborHead 3 5 ++ [1, 2])) = .error .MalformedEncoding ∧
      readBytes 3 [9] = .error .MalformedEncoding :=
  ⟨by decide, C7_safety.1 [128, 7, 7] ⟨[]⟩ [7, 7] (by decide), by decide,
    C7_safety.2.1 5 [1, 2] (by decide) (by decide),
    C7_safety.2.2 3 [9] (by decide)⟩

/-- C8: every constructible record value and extension-attribute value has
exactly one active variant — of the six (respectively five) variant
discriminators, exactly one is true on any value, enforced by the
inductive (sum-type) construction rather than a runtime flag. -/
theorem C8_one_variant :
    (∀ u : record_union_,
      ([is_vi u, is_vf u, is_vs u, is_vb u, is_vd u, is_vlo u].count true) = 1) ∧
    (∀ v : value_,
      ([is_tstr v, is_bstr v, is_int v, is_float v, is_bool v].count true) = 1) := by
  constructor
  · intro u
    cases u <;> rfl
  · intro v
    cases v <;> rfl

/-- C9: the extension-attribute value union has exactly the five variants
text, bytes, integer, float, boolean — its embedding into the record value
union is injective, never hits the object-link variant, and together with
object links covers the whole record value union; and the codec preserves
the correspondence: an extension payload is encoded exactly as the record
value payload of the embedded variant. -/
theorem C9_asymmetry :
    (∀ x y : value_, value_toUnion x = value_toUnion y → x = y) ∧
    (∀ (x : value_) (s : List Byte), value_toUnion x ≠ .union_vlo s) ∧
    (∀ u : record_union_, (∃ s, u = .union_vlo s) ∨ ∃ x, value_toUnion x = u) ∧
    (∀ x : value_, encExtValue x = encValuePayload (value_toUnion x)) := by
  refine ⟨?_, ?_, ?_, ?_⟩
  · intro x y h
    cases x <;> cases y <;> simp_all [value_toUnion]
  · intro x s
    cases x <;> simp [value_toUnion]
  · intro u
    cases u with
    | union_vi i => exact Or.inr ⟨.value_int i, rfl⟩
    | union_vf bits => exact Or.inr ⟨.value_float bits, rfl⟩
    | union_vs s => exact Or.inr ⟨.value_tstr s, rfl⟩
    | union_vb b => exact Or.inr ⟨.value_bool b, rfl⟩
    | union_vd s => exact Or.inr ⟨.value_bstr s, rfl⟩
    | union_vlo s => exact Or.inl ⟨s, rfl⟩
  · intro x
    cases x <;> rfl

theorem C9_asymmetry_witness :
    value_toUnion (.value_int 3) = value_toUnion (.value_int 3) ∧
      (value_.value_int 3 = value_.value_int 3) :=
  ⟨rfl, C9_asymmetry.1 (.value_int 3) (.value_int 3) rfl⟩

end Senml

namespace Lora

/-! ## LoRa driver API

From `src/include/zephyr/drivers/lora.h`: the driver vtable
`struct lora_driver_api` and the `static inline` wrapper functions.  The
wrappers read `dev->api` and call the corresponding function pointer; the
shallow embedding parameterizes over the device representation `D`, models a
function pointer as an `Option` of a function, and models a call through a
pointer as `Option.map`, so a call through a NULL pointer (undefined behavior
in C) is `none` while a defined `int` return is `some`.  Pointer out-
parameters (receive buffers, RSSI/SNR) are elided; buffers are byte lists. -/

/-- From `struct lora_modem_config` in `lora.h`. -/
structure lora_modem_config where
  frequency : Nat
  bandwidth : Nat
  datarate : Nat
  coding_rate : Nat
  preamble_len : Nat
  tx_power : Int
  tx : Bool
  iq_inverted : Bool
  public_network : Bool

/-- From `struct lora_driver_api` in `lora.h`: one optional function pointer
per operation, in declaration order. -/
structure lora_driver_api (D : Type) where
  config : Option (D → lora_modem_config → Int)
  send : Option (D → List Nat → Nat → Int)
  send_async : Option (D → List Nat → Nat → Option Nat → Int)
  recv : Option (D → Nat → Int → Int)
  recv_async : Option (D → Nat → Int)
  test_cw : Option (D → Nat → Int → Nat → Int)
  soft_reset : Option (D → Int)
  write_register : Option (D → Nat → Nat → Int)
  read_register : Option (D → Nat → Int)
  hard_reset : Option (D → Int)
  set_channel : Option (D → Nat → Int)
  set_standby : Option (D → Int)
  set_sleep : Option (D → Int)
  wait_on_busy : Option (D → Int)
  wake_up : Option (D → Int)
  set_RX_continuous : Option (D → Int)

/-- Zephyr's `ENOSYS` errno value ("function not implemented"); the errno
header is not part of the examined sources, so only the name matters here. -/
def ENOSYS : Int := 88

/-- From `lora_wake_up` in `lora.h`: calls `api->wake_up(dev)` with no NULL
guard. -/
def lora_wake_up (api : lora_driver_api D) (dev : D) : Option Int :=
  api.wake_up.map fun f => f dev

/-- From `lora_wait_on_busy` in `lora.h`: unguarded call. -/
def lora_wait_on_busy (api : lora_driver_api D) (dev : D) : Option Int :=
  api.wait_on_busy.map fun f => f dev

/-- From `lora_set_standby` in `lora.h`: unguarded call. -/
def lora_set_standby (api : lora_driver_api D) (dev : D) : Option Int :=
  api.set_standby.map fun f => f dev

/-- From `lora_set_sleep` in `lora.h`: unguarded call. -/
def lora_set_sleep (api : lora_driver_api D) (dev : D) : Option Int :=
  api.set_sleep.map fun f => f dev

/-- From `lora_set_channel` in `lora.h`: unguarded call. -/
def lora_set_channel (api : lora_driver_api D) (dev : D) (freq : Nat) : Option Int :=
  api.set_channel.map fun f => f dev freq

/-- From `lora_hard_reset` in `lora.h`: unguarded call. -/
def lora_hard_reset (api : lora_driver_api D) (dev : D) : Option Int :=
  api.hard_reset.map fun f => f dev

/-- From `lora_read_register` in `lora.h`: unguarded call. -/
def lora_read_register (api : lora_driver_api D) (dev : D) (address : Nat) : Option Int :=
  api.read_register.map fun f => f dev address

/-- From `lora_write_register` in `lora.h`: unguarded call. -/
def lora_write_register (api : lora_driver_api D) (dev : D) (address value : Nat) : Option Int :=
  api.write_register.map fun f => f dev address value

/-- From `lora_soft_reset` in `lora.h`: unguarded call. -/
def lora_soft_reset (api : lora_driver_api D) (dev : D) : Option Int :=
  api.soft_reset.map fun f => f dev

/-- From `lora_config` in `lora.h`: unguarded call. -/
def lora_config (api : lora_driver_api D) (dev : D) (cfg : lora_modem_config) : Option Int :=
  api.config.map fun f => f dev cfg

/-- From `lora_send` in `lora.h`: unguarded call. -/
def lora_send (api : lora_driver_api D) (dev : D) (data : List Nat) (data_len : Nat) :
    Option Int :=
  api.send.map fun f => f dev data data_len

/-- From `lora_send_async` in `lora.h`: unguarded call. -/
def lora_send_async (api : lora_driver_api D) (dev : D) (data : List Nat)
    (data_len : Nat) (async : Option Nat) : Option Int :=
  api.send_async.map fun f => f dev data data_len async

/-- From `lora_recv` in `lora.h`: unguarded call. -/
def lora_recv (api : lora_driver_api D) (dev : D) (size : Nat) (tmo : Int) : Option Int :=
  api.recv.map fun f => f dev size tmo

/-- From `lora_recv_async` in `lora.h`: unguarded call. -/
def lora_recv_async (api : lora_driver_api D) (dev : D) (cb : Nat) : Option Int :=
  api.recv_async.map fun f => f dev cb

/-- From `lora_set_RX_continuous` in `lora.h`: unguarded call. -/
def lora_set_RX_continuous (api : lora_driver_api D) (dev : D) : Option Int :=
  api.set_RX_continuous.map fun f => f dev

/-- From `lora_test_cw` in `lora.h`: the one wrapper with a NULL guard —
returns `-ENOSYS` when `api->test_cw` is NULL, otherwise calls it. -/
def lora_test_cw (api : lora_driver_api D) (dev : D) (frequency : Nat)
    (tx_power : Int) (duration : Nat) : Option Int :=
  match api.test_cw with
  | none => some (-ENOSYS)
  | some f => some (f dev frequency tx_power duration)

/-- A driver vtable with every function pointer NULL, over a trivial device
representation. -/
def noneApi : lora_driver_api Nat :=
  { config := none, send := none, send_async := none, recv := none, recv_async := none,
    test_cw := none, soft_reset := none, write_register := none, read_register := none,
    hard_reset := none, set_channel := none, set_standby := none, set_sleep := none,
    wait_on_busy := none, wake_up := none, set_RX_continuous := none }

/-- An all-zero modem configuration. -/
def cfg0 : lora_modem_config :=
  { frequency := 0, bandwidth := 0, datarate := 0, coding_rate := 0, preamble_len := 0,
    tx_power := 0, tx := false, iq_inverted := false, public_network := false }

/-- C10: `lora_test_cw` is the only wrapper that guards its vtable entry —
with a NULL `test_cw` it returns `-ENOSYS` without any driver call, and with
a non-NULL entry it calls it; every other wrapper calls its entry
unconditionally, so with a NULL entry its behavior is the undefined call
through a NULL pointer (modelled as `none`). -/
theorem C10_test_cw_guard {D : Type} (api : lora_driver_api D) (dev : D)
    (freq : Nat) (pw : Int) (dur : Nat) (data : List Nat) (len : Nat)
    (addr : Nat) (v : Nat) (cfg : lora_modem_config) (sig : Option Nat)
    (size : Nat) (tmo : Int) (cb : Nat) :
    (api.test_cw = none → lora_test_cw api dev freq pw dur = some (-ENOSYS)) ∧
    (∀ f, api.test_cw = some f →
      lora_test_cw api dev freq pw dur = some (f dev freq pw dur)) ∧
    (api.wake_up = none → lora_wake_up api dev = none) ∧
    (api.send = none → lora_send api dev data len = none) ∧
    (api.config = none → lora_config api dev cfg = none) ∧
    (api.send_async = none → lora_send_async api dev data len sig = none) ∧
    (api.recv = none → lora_recv api dev size tmo = none) ∧
    (api.recv_async = none → lora_recv_async api dev cb = none) ∧
    (api.soft_reset = none → lora_soft_reset api dev = none) ∧
    (api.write_register = none → lora_write_register api dev addr v = none) ∧
    (api.read_register = none → lora_read_register api dev addr = none) ∧
    (api.hard_reset = none → lora_hard_reset api dev = none) ∧
    (api.set_channel = none → lora_set_channel api dev freq = none) ∧
    (api.set_standby = none → lora_set_standby api dev = none) ∧
    (api.set_sleep = none → lora_set_sleep api dev = none) ∧
    (api.wait_on_busy = none → lora_wait_on_busy api dev = none) ∧
    (api.set_RX_continuous = none → lora_set_RX_continuous api dev = none) := by
  refine ⟨fun h => by simp [lora_test_cw, h], fun f h => by simp [lora_test_cw, h],
    fun h => by simp [lora_wake_up, h], fun h => by simp [lora_send, h],
    fun h => by simp [lora_config, h], fun h => by simp [lora_send_async, h],
    fun h => by simp [lora_recv, h], fun h => by simp [lora_recv_async, h],
    fun h => by simp [lora_soft_reset, h], fun h => by simp [lora_write_register, h],
    fun h => by simp [lora_read_register, h], fun h => by simp [lora_hard_reset, h],
    fun h => by simp [lora_set_channel, h], fun h => by simp [lora_set_standby, h],
    fun h => by simp [lora_set_sleep, h], fun h => by simp [lora_wait_on_busy, h],
    fun h => by simp [lora_set_RX_continuous, h]⟩

theorem C10_test_cw_guard_witness :
    lora_test_cw noneApi 0 868000000 14 5 = some (-ENOSYS) ∧
      lora_wake_up noneApi 0 = none ∧ lora_send noneApi 0 [] 0 = none :=
  ⟨(C10_test_cw_guard noneApi 0 868000000 14 5 [] 0 0 0 cfg0 none 0 0 0).1 rfl,
    (C10_test_cw_guard noneApi 0 868000000 14 5 [] 0 0 0 cfg0 none 0 0 0).2.2.1 rfl,
    (C10_test_cw_guard noneApi 0 868000000 14 5 [] 0 0 0 cfg0 none 0 0 0).2.2.2.1 rfl⟩

end Lora


